import Mathlib

/-!
Verification of the `dstore` storage-abstraction library.

This file shallowly embeds the parts of the Go source that the verified
properties talk about:

* the shared `commonStore` helpers (`compressedCopy`, `uncompressedReader`,
  `commonWalkFrom`, `pushLocalFile`, `pathWithExt`) from the common archive
  store file;
* `MemoryStore` (memory.go): `WriteObject`, `OpenObject`, `FileExists`,
  `DeleteObject`, `SubStore`, `Clone`;
* `LocalStore` (localstore file): `WriteObject`, `OpenObject`, `ObjectPath`,
  `toBaseName`, `SubStore`;
* `MockStore.Walk` (testing.go);
* `S3Store.WalkFrom` and `S3Store.PushLocalFile` (s3store.go).

Go strings are modelled as Lean `String`s; Go compares strings byte-wise
and UTF-8 byte order agrees with code-point order, so the comparison is
re-implemented explicitly on `List Char` (`goStrLtL`) to stay executable.
Byte sequences are `List Nat`. Go maps are association lists with the
map operations re-implemented (`mapGet`, `mapSet`, `mapDel`).
-/

/-- Contents of an object: a byte sequence. -/
abbrev Bytes := List Nat

/-- The error values relevant to the verified properties: the normalized
`ErrNotFound` sentinel, the `StopIteration` control sentinel, and any other
Go error identified by its message (as produced by `fmt.Errorf`). -/
inductive GoErr where
  | errNotFound : GoErr
  | stopIteration : GoErr
  | errMsg : String → GoErr
deriving DecidableEq, Repr

/- ### Go map operations on association lists -/

/-- Go map read `m[k]` (comma-ok form): the value bound to `k`, if any. -/
def mapGet {α : Type} (m : List (String × α)) (k : String) : Option α :=
  match m with
  | [] => none
  | (k', v) :: rest => if k' = k then some v else mapGet rest k

/-- Go map write `m[k] = v`: replaces the binding of `k`, or appends it. -/
def mapSet {α : Type} (m : List (String × α)) (k : String) (v : α) :
    List (String × α) :=
  match m with
  | [] => [(k, v)]
  | (k', v') :: rest =>
    if k' = k then (k, v) :: rest else (k', v') :: mapSet rest k v

/-- Go `delete(m, k)`: removes every binding of `k`. -/
def mapDel {α : Type} (m : List (String × α)) (k : String) : List (String × α) :=
  m.filter (fun kv => decide (kv.1 ≠ k))

theorem mapGet_mapSet_self {α : Type} (m : List (String × α)) (k : String) (v : α) :
    mapGet (mapSet m k v) k = some v := by
  induction m with
  | nil => simp [mapGet, mapSet]
  | cons kv rest ih =>
    obtain ⟨k', v'⟩ := kv
    by_cases h : k' = k <;> simp [mapGet, mapSet, h, ih]

theorem mapGet_mapSet_ne {α : Type} (m : List (String × α)) (k k' : String) (v : α)
    (h : k ≠ k') : mapGet (mapSet m k v) k' = mapGet m k' := by
  induction m with
  | nil => simp [mapGet, mapSet, h]
  | cons kv rest ih =>
    obtain ⟨k₀, v₀⟩ := kv
    by_cases h₀ : k₀ = k
    · subst h₀
      simp [mapGet, mapSet, h]
    · simp [mapGet, mapSet, h₀, ih]

theorem mapGet_mapDel_self {α : Type} (m : List (String × α)) (k : String) :
    mapGet (mapDel m k) k = none := by
  induction m with
  | nil => simp [mapGet, mapDel]
  | cons kv rest ih =>
    obtain ⟨k', v'⟩ := kv
    by_cases h : k' = k <;> simp_all [mapGet, mapDel, List.filter]

theorem mapDel_idem {α : Type} (m : List (String × α)) (k : String) :
    mapDel (mapDel m k) k = mapDel m k := by
  simp [mapDel, List.filter_filter]

/- ### Go string primitives -/

/-- Go byte-wise string comparison `a < b`, on the character lists
(UTF-8 byte order coincides with code-point order). -/
def goStrLtL : List Char → List Char → Bool
  | [], [] => false
  | [], _ :: _ => true
  | _ :: _, [] => false
  | a :: as, b :: bs =>
    if a < b then true
    else if b < a then false
    else goStrLtL as bs

/-- Go `s < t` on strings. -/
def goStrLt (s t : String) : Bool := goStrLtL s.data t.data

/-- Go `s <= t` on strings (equivalently `!(t < s)`). -/
def goStrLe (s t : String) : Bool := !(goStrLt t s)

/-- Go `strings.HasPrefix(s, pre)`. -/
def goHasPre (s pre : String) : Bool := pre.data.isPrefixOf s.data

/-- Go `strings.HasSuffix(s, suf)`. -/
def goHasSuf (s suf : String) : Bool := suf.data.isSuffixOf s.data

/-- Go `strings.TrimPrefix(s, pre)` on character lists. -/
def trimPreL (s pre : List Char) : List Char :=
  if pre.isPrefixOf s then s.drop pre.length else s

/-- Go `strings.TrimSuffix(s, suf)` on character lists. -/
def trimSufL (s suf : List Char) : List Char :=
  if suf.isSuffixOf s then s.take (s.length - suf.length) else s

/-- Go `strings.TrimPrefix` on strings. -/
def goTrimPre (s pre : String) : String := String.mk (trimPreL s.data pre.data)

/-- Go `strings.TrimSuffix` on strings. -/
def goTrimSuf (s suf : String) : String := String.mk (trimSufL s.data suf.data)

/-- Go `strings.Contains(s, sub)` on character lists. -/
def containsSubL (s sub : List Char) : Bool :=
  if sub.isPrefixOf s then true
  else
    match s with
    | [] => false
    | _ :: rest => containsSubL rest sub

/-- Go `strings.Contains(s, sub)`. -/
def goContains (s sub : String) : Bool := containsSubL s.data sub.data

/-- Go `strings.ContainsAny(s, chars)`: whether any character of `chars`
occurs in `s`. -/
def goContainsAny (s chars : String) : Bool :=
  chars.data.any (fun c => s.data.contains c)

/- ### Facts about the Go string comparison -/

theorem goStrLtL_irrefl (l : List Char) : goStrLtL l l = false := by
  induction l with
  | nil => rfl
  | cons c rest ih => simp [goStrLtL, ih]

theorem goStrLtL_asymm (a b : List Char) (h : goStrLtL a b = true) :
    goStrLtL b a = false := by
  induction a generalizing b with
  | nil =>
    cases b with
    | nil => simp [goStrLtL]
    | cons y ys => simp [goStrLtL]
  | cons x xs ih =>
    cases b with
    | nil => simp [goStrLtL] at h
    | cons y ys =>
      by_cases hxy : x < y
      · simp [goStrLtL, hxy, asymm hxy, not_lt_of_lt hxy]
      · by_cases hyx : y < x
        · simp [goStrLtL, hxy, hyx] at h
        · simp only [goStrLtL, hxy, hyx, if_false] at h ⊢
          simp [ih ys h]

theorem goStrLtL_trans (a b c : List Char) (hab : goStrLtL a b = true)
    (hbc : goStrLtL b c = true) : goStrLtL a c = true := by
  induction a generalizing b c with
  | nil =>
    cases c with
    | nil =>
      cases b with
      | nil => exact hab
      | cons y ys => simp [goStrLtL] at hbc
    | cons z zs => simp [goStrLtL]
  | cons x xs ih =>
    cases b with
    | nil => simp [goStrLtL] at hab
    | cons y ys =>
      cases c with
      | nil => simp [goStrLtL] at hbc
      | cons z zs =>
        by_cases hxy : x < y <;> by_cases hyz : y < z
        · have hxz : x < z := lt_trans hxy hyz
          simp [goStrLtL, hxz]
        · by_cases hzy : z < y
          · simp [goStrLtL, hyz, hzy] at hbc
          · have hyz' : y = z := le_antisymm (not_lt.mp hzy) (not_lt.mp hyz)
            subst hyz'
            simp [goStrLtL, hxy]
        · by_cases hyx : y < x
          · simp [goStrLtL, hxy, hyx] at hab
          · have hxy' : x = y := le_antisymm (not_lt.mp hyx) (not_lt.mp hxy)
            subst hxy'
            simp [goStrLtL, hyz]
        · by_cases hyx : y < x
          · simp [goStrLtL, hxy, hyx] at hab
          · by_cases hzy : z < y
            · simp [goStrLtL, hyz, hzy] at hbc
            · have hxy' : x = y := le_antisymm (not_lt.mp hyx) (not_lt.mp hxy)
              have hyz' : y = z := le_antisymm (not_lt.mp hzy) (not_lt.mp hyz)
              subst hxy'; subst hyz'
              simp only [goStrLtL, lt_irrefl, if_false] at hab hbc ⊢
              exact ih ys zs hab hbc

theorem goStrLtL_connex (a b : List Char) (hab : goStrLtL a b = false)
    (hba : goStrLtL b a = false) : a = b := by
  induction a generalizing b with
  | nil =>
    cases b with
    | nil => rfl
    | cons y ys => simp [goStrLtL] at hab
  | cons x xs ih =>
    cases b with
    | nil => simp [goStrLtL] at hba
    | cons y ys =>
      by_cases hxy : x < y
      · simp [goStrLtL, hxy] at hab
      · by_cases hyx : y < x
        · simp [goStrLtL, hyx, not_lt_of_lt hyx] at hba
        · have hxy' : x = y := le_antisymm (not_lt.mp hyx) (not_lt.mp hxy)
          subst hxy'
          simp only [goStrLtL, lt_irrefl, if_false] at hab hba
          rw [ih ys hab hba]

theorem goStrLe_trans (a b c : String) (hab : goStrLe a b = true)
    (hbc : goStrLe b c = true) : goStrLe a c = true := by
  simp only [goStrLe, goStrLt, Bool.not_eq_true', Bool.not_eq_false] at *
  by_contra hca
  rw [Bool.not_eq_false] at hca
  rcases Bool.eq_false_or_eq_true (goStrLtL b.data c.data) with hbc' | hbc'
  · have hba : goStrLtL b.data a.data = true := goStrLtL_trans _ _ _ hbc' hca
    exact absurd hba (by rw [hab]; simp)
  · have hbceq : b.data = c.data := goStrLtL_connex _ _ hbc' hbc
    rw [← hbceq] at hca
    exact absurd hca (by rw [hab]; simp)

theorem goStrLe_total (a b : String) :
    goStrLe a b = true ∨ goStrLe b a = true := by
  simp only [goStrLe, goStrLt, Bool.not_eq_true']
  rcases Bool.eq_false_or_eq_true (goStrLtL b.data a.data) with h | h
  · right; exact goStrLtL_asymm _ _ h
  · left; exact h

/- ### CompressionPipeline (common archive store: compressedCopy / uncompressedReader)

The gzip and zstd codecs come from external libraries (`compress/gzip`,
`klauspost/compress/zstd`); the repository only pipes bytes through them.
They are modelled as an abstract encoder/decoder pair; the library's
documented contract (decoding inverts encoding) becomes a hypothesis of the
round-trip theorems. The byte-count callback wrappers (`callbackWriter`,
`callbackReadCloser`) forward bytes unchanged and are omitted from the
byte-level model. -/

/-- An external codec implementation: a streaming encoder (everything the
encoder emits up to and including `Close`) and decoder. -/
structure CodecImpl where
  enc : Bytes → Bytes
  dec : Bytes → Bytes

/-- `commonStore.compressedCopy`: the bytes that reach the destination when
`source` is copied through the codec selected by `compressionType`
("gzip", "zstd", or anything else meaning no compression). -/
def compressedCopy (gz zs : CodecImpl) (compressionType : String) (source : Bytes) :
    Bytes :=
  if compressionType = "gzip" then gz.enc source
  else if compressionType = "zstd" then zs.enc source
  else source

/-- `commonStore.uncompressedReader`: the bytes the caller reads back when the
stored bytes are wrapped in the decoder selected by `compressionType`. -/
def uncompressedReader (gz zs : CodecImpl) (compressionType : String)
    (stored : Bytes) : Bytes :=
  if compressionType = "gzip" then gz.dec stored
  else if compressionType = "zstd" then zs.dec stored
  else stored

/-- Shared helper: the pipeline round-trips for every codec selection, given
the external codecs' round-trip contracts. -/
theorem codec_roundTrip (gz zs : CodecImpl)
    (hgz : ∀ b, gz.dec (gz.enc b) = b) (hzs : ∀ b, zs.dec (zs.enc b) = b)
    (compressionType : String) (b : Bytes) :
    uncompressedReader gz zs compressionType
      (compressedCopy gz zs compressionType b) = b := by
  by_cases h₁ : compressionType = "gzip"
  · simp [compressedCopy, uncompressedReader, h₁, hgz]
  · by_cases h₂ : compressionType = "zstd"
    · simp [compressedCopy, uncompressedReader, h₁, h₂, hzs]
    · simp [compressedCopy, uncompressedReader, h₁, h₂]

/-- A concrete invertible codec used by the witnesses: prepends a one-byte
header on encode, strips it on decode. -/
def headerCodec : CodecImpl where
  enc := fun b => 17 :: b
  dec := fun b => b.drop 1

theorem headerCodec_roundTrip (b : Bytes) : headerCodec.dec (headerCodec.enc b) = b := rfl

/- ### MemoryStore (memory.go)

The store's configuration (`commonStore` fields) is inlined by value here;
this model is used for the claims in which no `*commonStore` aliasing is
involved (a separate pointer-aware model below covers `SubStore`/`Clone`
configuration sharing). `modified` timestamps are abstract `Nat` instants
supplied by the caller in place of `time.Now()`. -/

structure MemStore where
  extension : String
  compressionType : String
  overwrite : Bool
  data : List (String × Bytes)
  modified : List (String × Nat)
deriving Repr, DecidableEq

/-- `MemoryStore.WriteObject`: a no-op when the name exists and overwrite is
off; otherwise stores the compressed copy of the content and stamps the
modification time. -/
def MemStore.writeObject (gz zs : CodecImpl) (st : MemStore) (base : String)
    (f : Bytes) (now : Nat) : MemStore :=
  if (mapGet st.data base).isSome ∧ st.overwrite = false then st
  else
    { st with
      data := mapSet st.data base (compressedCopy gz zs st.compressionType f)
      modified := mapSet st.modified base now }

/-- `MemoryStore.OpenObject`: `ErrNotFound` for an unwritten name, otherwise
the stored bytes seen through the decompressing reader. -/
def MemStore.openObject (gz zs : CodecImpl) (st : MemStore) (name : String) :
    Except GoErr Bytes :=
  match mapGet st.data name with
  | none => .error .errNotFound
  | some stored => .ok (uncompressedReader gz zs st.compressionType stored)

/-- `MemoryStore.FileExists`. -/
def MemStore.fileExists (st : MemStore) (base : String) : Bool :=
  (mapGet st.data base).isSome

/-- `MemoryStore.DeleteObject`: deletes the `data` and `modified` entries and
returns `nil` unconditionally. -/
def MemStore.deleteObject (st : MemStore) (base : String) :
    Except GoErr MemStore :=
  .ok { st with data := mapDel st.data base, modified := mapDel st.modified base }

/- ### PathResolver: Go path.Clean / path.Join and the LocalStore paths

Go's `path.Clean` (standard library, consumed by `path.Join` in
`LocalStore.ObjectPath`) is modelled from its documented rules: collapse
multiple slashes, drop `.` elements, resolve `..` against the preceding
element, drop leading `..` of a rooted path; empty result becomes `.`,
a rooted result keeps its leading slash. The model splits the path into
slash-separated segments and processes them with a stack. -/

/-- Split a character list on `/`, keeping empty segments. -/
def splitSlash : List Char → List (List Char)
  | [] => [[]]
  | c :: cs =>
    if c = '/' then [] :: splitSlash cs
    else
      match splitSlash cs with
      | [] => [[c]]
      | s :: rest => (c :: s) :: rest

/-- Join segments back with `/` separators. -/
def joinSegs : List (List Char) → List Char
  | [] => []
  | [s] => s
  | s :: rest => s ++ '/' :: joinSegs rest

/-- The segment-processing core of `path.Clean`. `stack` holds the already
emitted elements in reverse. -/
def cleanStack (rooted : Bool) (stack : List (List Char)) :
    List (List Char) → List (List Char)
  | [] => stack.reverse
  | seg :: rest =>
    if seg = [] ∨ seg = ['.'] then cleanStack rooted stack rest
    else if seg = ['.', '.'] then
      match stack with
      | top :: stack' =>
        if top = ['.', '.'] then cleanStack rooted (seg :: stack) rest
        else cleanStack rooted stack' rest
      | [] => if rooted then cleanStack rooted [] rest else cleanStack rooted [seg] rest
    else cleanStack rooted (seg :: stack) rest

/-- Go `path.Clean`. -/
def pathClean (p : String) : String :=
  match p.data with
  | [] => "."
  | c :: _ =>
    let rooted := decide (c = '/')
    let out := joinSegs (cleanStack rooted [] (splitSlash p.data))
    if rooted then String.mk ('/' :: out)
    else if out = [] then "."
    else String.mk out

/-- Go `path.Join` on two elements: empty elements are dropped, the rest are
joined with `/` and cleaned; all-empty input yields the empty string. -/
def pathJoin (a b : String) : String :=
  if a = "" then (if b = "" then "" else pathClean b)
  else if b = "" then pathClean a
  else pathClean (a ++ "/" ++ b)

/-- `commonStore.pathWithExt`: appends `"." + extension` when an extension is
configured. -/
def pathWithExt (extension base : String) : String :=
  if extension ≠ "" then base ++ "." ++ extension else base

/-- A `LocalStore` handle: `basePath` (cleaned at construction) plus the
embedded `commonStore` configuration, by value (no aliasing is exercised by
the claims proved on this model). -/
structure LocalCfg where
  basePath : String
  extension : String
  compressionType : String
  overwrite : Bool
deriving Repr, DecidableEq

/-- `LocalStore.ObjectPath`. -/
def LocalCfg.objectPath (s : LocalCfg) (name : String) : String :=
  pathJoin s.basePath (pathWithExt s.extension name)

/-- `LocalStore.toBaseName`: strips the extension suffix, the base path, and
one leading slash. -/
def LocalCfg.toBaseName (s : LocalCfg) (filename : String) : String :=
  goTrimPre (goTrimPre (goTrimSuf filename (pathWithExt s.extension "")) s.basePath) "/"

/- The local filesystem is an association from absolute file paths to byte
contents; directories are implicit. -/

/-- `LocalStore.WriteObject`: stream into a fresh `*.tmp` sibling, close it,
and rename over the destination. With the temp name fresh, the net effect on
the file map is exactly one binding update at the destination path; no
overwrite-policy check is performed (the `overwrite` flag is ignored). -/
def LocalCfg.writeObject (gz zs : CodecImpl) (s : LocalCfg)
    (fs : List (String × Bytes)) (base : String) (reader : Bytes) :
    List (String × Bytes) :=
  mapSet fs (s.objectPath base) (compressedCopy gz zs s.compressionType reader)

/-- The cutset `ContainsAny` is checked against in `LocalStore.OpenObject`. -/
def notFoundCutset : String := "no such file or directory"

/-- `LocalStore.OpenObject`: `os.Open`; when it fails, an error whose message
contains any character of `"no such file or directory"` is normalized to
`ErrNotFound` (which is in particular the case for the actual
`*PathError` text `open <path>: no such file or directory`). -/
def LocalCfg.openObject (gz zs : CodecImpl) (s : LocalCfg)
    (fs : List (String × Bytes)) (name : String) : Except GoErr Bytes :=
  let path := s.objectPath name
  match mapGet fs path with
  | none =>
    let msg := "open " ++ path ++ ": no such file or directory"
    if goContainsAny msg notFoundCutset then .error .errNotFound
    else .error (.errMsg msg)
  | some stored => .ok (uncompressedReader gz zs s.compressionType stored)

/- ### Path algebra: cleaning is the identity on already-clean paths -/

/-- A path element that `path.Clean` leaves alone: non-empty and neither `.`
nor `..`. -/
def goodSeg (seg : List Char) : Bool :=
  decide (seg ≠ [] ∧ seg ≠ ['.'] ∧ seg ≠ ['.', '.'])

/-- A clean relative path: every slash-separated segment is good (this rules
out the empty string, a leading, trailing or doubled slash, and `.`/`..`
elements). -/
def validRel (s : String) : Bool := (splitSlash s.data).all goodSeg

/-- A clean base path as produced at `LocalStore` construction: either rooted
with a non-empty clean remainder, or a clean relative path; never ends in a
slash. -/
def validBase (p : String) : Bool :=
  match p.data with
  | [] => false
  | '/' :: rest => !rest.isEmpty && (splitSlash rest).all goodSeg
  | _ => (splitSlash p.data).all goodSeg

theorem splitSlash_ne_nil (l : List Char) : splitSlash l ≠ [] := by
  cases l with
  | nil => simp [splitSlash]
  | cons c cs =>
    by_cases h : c = '/'
    · simp [splitSlash, h]
    · simp only [splitSlash, h, if_false]
      cases hs : splitSlash cs <;> simp

theorem splitSlash_append (a b : List Char) :
    splitSlash (a ++ '/' :: b) = splitSlash a ++ splitSlash b := by
  induction a with
  | nil => simp [splitSlash]
  | cons c cs ih =>
    by_cases h : c = '/'
    · subst h
      simp [splitSlash, ih]
    · cases hs : splitSlash cs with
      | nil => exact absurd hs (splitSlash_ne_nil cs)
      | cons s rest =>
        have lhs : splitSlash (c :: cs ++ '/' :: b) = (c :: s) :: (rest ++ splitSlash b) := by
          show splitSlash (c :: (cs ++ '/' :: b)) = (c :: s) :: (rest ++ splitSlash b)
          simp only [splitSlash, h, if_false]
          rw [ih, hs]
          rfl
        rw [lhs]
        simp only [splitSlash, h, if_false]
        rw [hs]
        rfl

theorem joinSegs_splitSlash (l : List Char) : joinSegs (splitSlash l) = l := by
  induction l with
  | nil => rfl
  | cons c cs ih =>
    by_cases h : c = '/'
    · subst h
      simp only [splitSlash, if_pos rfl]
      cases hs : splitSlash cs with
      | nil => exact absurd hs (splitSlash_ne_nil cs)
      | cons s rest =>
        rw [hs] at ih
        simp [joinSegs, ih]
    · simp only [splitSlash, h, if_false]
      cases hs : splitSlash cs with
      | nil => exact absurd hs (splitSlash_ne_nil cs)
      | cons s rest =>
        rw [hs] at ih
        cases rest with
        | nil => simp_all [joinSegs]
        | cons r rs =>
          simp only [joinSegs] at ih ⊢
          simp [ih]

theorem cleanStack_of_good (segs : List (List Char)) (h : segs.all goodSeg = true)
    (rooted : Bool) (stack : List (List Char)) :
    cleanStack rooted stack segs = stack.reverse ++ segs := by
  induction segs generalizing stack with
  | nil => simp [cleanStack]
  | cons seg rest ih =>
    simp only [List.all_cons, Bool.and_eq_true] at h
    obtain ⟨hseg, hrest⟩ := h
    simp only [goodSeg, decide_eq_true_eq] at hseg
    obtain ⟨h₁, h₂, h₃⟩ := hseg
    have hor : ¬(seg = [] ∨ seg = ['.']) := by
      simp [h₁, h₂]
    simp only [cleanStack, hor, h₃, if_false]
    rw [ih hrest (seg :: stack)]
    simp

theorem data_mk (l : List Char) : (String.mk l).data = l := rfl

theorem mk_data (s : String) : String.mk s.data = s := rfl

/-- `path.Clean` is the identity on a clean relative path. -/
theorem pathClean_rel (l : List Char) (h : (splitSlash l).all goodSeg = true) :
    pathClean (String.mk l) = String.mk l := by
  cases l with
  | nil => simp [splitSlash, goodSeg] at h
  | cons c rest =>
    have hc : ¬(c = '/') := by
      intro hc
      subst hc
      simp [splitSlash, goodSeg] at h
    have hclean := cleanStack_of_good _ h (decide (c = '/')) []
    have hne : joinSegs (splitSlash (c :: rest)) ≠ [] := by
      rw [joinSegs_splitSlash]
      simp
    simp only [pathClean, data_mk, hclean, List.reverse_nil, List.nil_append,
      joinSegs_splitSlash] at hne ⊢
    simp [hc, hne]

/-- `path.Clean` is the identity on a rooted path with a clean remainder. -/
theorem pathClean_rooted (l : List Char) (h : (splitSlash l).all goodSeg = true) :
    pathClean (String.mk ('/' :: l)) = String.mk ('/' :: l) := by
  have hsplit : splitSlash ('/' :: l) = [] :: splitSlash l := by
    simp [splitSlash]
  have hclean : cleanStack true [] ([] :: splitSlash l) = splitSlash l := by
    show cleanStack true [] ([] :: splitSlash l) = splitSlash l
    have step : cleanStack true [] ([] :: splitSlash l) = cleanStack true [] (splitSlash l) := by
      simp [cleanStack]
    rw [step, cleanStack_of_good _ h true []]
    simp
  simp only [pathClean, data_mk, hsplit]
  simp [hclean, joinSegs_splitSlash]

/-- Joining a clean base with a clean relative path is plain concatenation. -/
theorem pathJoin_eq_append (a b : String) (ha : validBase a = true)
    (hb : validRel b = true) : pathJoin a b = a ++ "/" ++ b := by
  have hbne : b ≠ "" := by
    intro hbe
    subst hbe
    simp [validRel, splitSlash, goodSeg] at hb
  cases hdata : a.data with
  | nil =>
    rw [validBase] at ha
    rw [hdata] at ha
    simp at ha
  | cons c rest =>
    have hane : a ≠ "" := by
      intro hae
      subst hae
      simp at hdata
    have hdataSum : (a ++ "/" ++ b).data = a.data ++ '/' :: b.data := by
      simp [String.data_append]
    by_cases hc : c = '/'
    · subst hc
      rw [validBase] at ha
      rw [hdata] at ha
      simp only [Bool.and_eq_true, Bool.not_eq_true', List.isEmpty_eq_false] at ha
      obtain ⟨hrest, hgood⟩ := ha
      have hgood' : (splitSlash (rest ++ '/' :: b.data)).all goodSeg = true := by
        rw [splitSlash_append]
        rw [List.all_append]
        rw [validRel] at hb
        simp [hgood, hb]
      have heq : a ++ "/" ++ b = String.mk ('/' :: (rest ++ '/' :: b.data)) := by
        apply String.ext
        rw [hdataSum, hdata]
        rfl
      rw [pathJoin, if_neg hane, if_neg hbne, heq, pathClean_rooted _ hgood']
    · rw [validBase] at ha
      rw [hdata] at ha
      have hgoodA : (splitSlash (c :: rest)).all goodSeg = true := by
        cases hrest : (c :: rest) with
        | nil => simp at hrest
        | cons d ds => simp_all [hc]
      have hgood' : (splitSlash ((c :: rest) ++ '/' :: b.data)).all goodSeg = true := by
        rw [splitSlash_append]
        rw [List.all_append]
        rw [validRel] at hb
        simp [hgoodA, hb]
      have heq : a ++ "/" ++ b = String.mk ((c :: rest) ++ '/' :: b.data) := by
        apply String.ext
        rw [hdataSum, hdata]
      rw [pathJoin, if_neg hane, if_neg hbne, heq, pathClean_rel _ hgood']

theorem trimSufL_append (x y : List Char) : trimSufL (x ++ y) y = x := by
  have hsuf : y.isSuffixOf (x ++ y) = true := by
    rw [List.isSuffixOf_iff_suffix]
    exact List.suffix_append x y
  simp [trimSufL, hsuf, List.length_append, List.take_left]

theorem trimPreL_append (x y : List Char) : trimPreL (x ++ y) x = y := by
  have hpre : x.isPrefixOf (x ++ y) = true := by
    rw [List.isPrefixOf_iff_prefix]
    exact List.prefix_append x y
  simp [trimPreL, hpre, List.drop_left]

/- ### WalkEngine: commonWalkFrom, MockStore.Walk, S3Store.WalkFrom

A walk outcome is modelled as the sequence of names handed to the visit
callback together with the error the walk returns (`none` for success). The
claims are about visit sequences, so the callback itself is taken to accept
every name (it neither stops nor fails). -/

/-- The gating closure `commonWalkFrom` installs around the store's `Walk`:
skip names until one at or past `startingPoint` opens the gate, then forward
everything. -/
def walkFromVisit (startPt : String) (gatePassed : Bool) :
    List String → List String
  | [] => []
  | n :: rest =>
    if gatePassed then n :: walkFromVisit startPt true rest
    else if goStrLe startPt n then n :: walkFromVisit startPt true rest
    else walkFromVisit startPt false rest

/-- `commonWalkFrom`: reject a starting point that does not extend the
prefix before any walking, else run the store's walk through the gate.
`walkOut` is the visit sequence (and error outcome) the store's `Walk`
produces for the prefix. -/
def commonWalkFrom (walkOut : List String × Option GoErr) (pfx startPt : String) :
    List String × Option GoErr :=
  if startPt ≠ "" ∧ goHasPre startPt pfx = false then
    ([], some (.errMsg ("starting point \"" ++ startPt ++
      "\" must start with prefix \"" ++ pfx ++ "\"")))
  else
    (walkFromVisit startPt false walkOut.1, walkOut.2)

/-- The ascending byte-wise order `sort.StringSlice` sorts by. -/
def goLe (a b : String) : Prop := goStrLe a b = true

instance : DecidableRel goLe := fun a b => by
  unfold goLe
  infer_instance

instance : IsTotal String goLe := ⟨fun a b => goStrLe_total a b⟩

instance : IsTrans String goLe := ⟨fun a b c => goStrLe_trans a b c⟩

/-- Go `sort.Sort(sort.StringSlice(...))`: ascending byte-wise order
(modelled by any sorting algorithm; insertion sort here). -/
def sortStrings (l : List String) : List String :=
  List.insertionSort goLe l

/-- The loop body of `MockStore.Walk` over the sorted file names: any file
containing `"err"` aborts the walk with an error; otherwise names matching
the prefix are visited. -/
def mockWalkVisit (pfx : String) : List String → List String × Option GoErr
  | [] => ([], none)
  | file :: rest =>
    if goContains file "err" then ([], some (.errMsg ("mock err, " ++ file)))
    else if goHasPre file pfx then
      let r := mockWalkVisit pfx rest
      (file :: r.1, r.2)
    else mockWalkVisit pfx rest

/-- `MockStore.Walk`. -/
def mockWalk (files : List (String × Bytes)) (pfx : String) :
    List String × Option GoErr :=
  mockWalkVisit pfx (sortStrings (files.map Prod.fst))

/-- `MockStore.WalkFrom` = `commonWalkFrom` over `MockStore.Walk`. -/
def mockWalkFrom (files : List (String × Bytes)) (pfx startPt : String) :
    List String × Option GoErr :=
  commonWalkFrom (mockWalk files pfx) pfx startPt

/-- The `targetPrefix` computation at the head of `S3Store.WalkFrom`. -/
def s3TargetPre (storePath pfx : String) : String :=
  let t0 := if storePath ≠ "" then storePath ++ "/" else storePath
  if pfx ≠ "" then
    let t1 := pathJoin t0 pfx
    if goHasSuf pfx "/" then t1 ++ "/" else t1
  else t0

/-- `S3Store.toBaseName`. -/
def s3ToBaseName (storePath ext filename : String) : String :=
  goTrimPre (goTrimSuf filename (pathWithExt ext "")) (storePath ++ "/")

/-- `S3Store.WalkFrom`. `objects` stands for the bucket's key listing as the
external `ListObjectsV2` pagination serves it; the server applies the
`Prefix` filter and the exclusive `StartAfter` marker. The truncate-last-
character marker derivation and the client-side `filename < startingPoint`
re-filter are modelled at character granularity. -/
def s3WalkFrom (storePath ext : String) (objects : List String)
    (pfx startPt : String) : List String × Option GoErr :=
  let targetPre := s3TargetPre storePath pfx
  if startPt ≠ "" ∧ goHasPre startPt pfx = false then
    ([], some (.errMsg ("starting point \"" ++ startPt ++
      "\" must start with prefix \"" ++ pfx ++ "\"")))
  else
    let relStart := goTrimPre startPt pfx
    let startAfter : Option String :=
      if startPt ≠ "" ∧ relStart.data.length > 1 then
        some (targetPre ++ String.mk (relStart.data.take (relStart.data.length - 1)))
      else none
    let served := (objects.filter (fun k => goHasPre k targetPre)).filter
      (fun k =>
        match startAfter with
        | none => true
        | some m => goStrLt m k)
    let visited := (served.map (fun k => s3ToBaseName storePath ext k)).filter
      (fun fn => decide (fn ≠ "") &&
        (decide (startPt = "") || !goStrLt fn startPt))
    (visited, none)

/- ### LocalStore.Walk over a directory tree

`LocalStore.Walk` drives `filepath.Walk`, which performs a depth-first
traversal visiting each directory's entries in lexical name order (Go sorts
`readDirNames`). The model works with paths relative to the store's base
path: for the absolute paths the callback actually sees,
`HasPrefix(infoPath, fullPath)` and the length comparison reduce to the same
checks on the relative paths (the shared `basePath + "/"` strips), and with
no extension configured `toBaseName(infoPath)` is exactly the relative path.
Starting the traversal at the base directory instead of
`filepath.Dir(fullPath)` visits the same files in the same order: the
callback prunes (`SkipDir`) exactly the subtrees outside the prefix. A
`.tmp`-suffixed path returns early before anything else (which for a
directory skips the callback but still descends, since only `SkipDir`
prunes). -/

/-- A subtree of the base directory; entry names contain no slash and
sibling lists are in lexical (on-disk read) order. -/
inductive FsEntry where
  | file : String → FsEntry
  | dir : String → List FsEntry → FsEntry

mutual

/-- All file paths of a subtree, relative to the base, in traversal order. -/
def treeFiles (curRel : String) : FsEntry → List String
  | .file n => [curRel ++ n]
  | .dir n children => treeFilesList (curRel ++ n ++ "/") children

/-- All file paths under a sibling list. -/
def treeFilesList (curRel : String) : List FsEntry → List String
  | [] => []
  | e :: rest => treeFiles curRel e ++ treeFilesList curRel rest

end

mutual

/-- The `filepath.Walk` callback of `LocalStore.Walk`, on one entry: `.tmp`
paths return early; a directory at or past the prefix length that does not
match the prefix is pruned with `SkipDir`; matching files are visited. -/
def localWalkEntry (pfx curRel : String) : FsEntry → List String
  | .file n =>
    let p := curRel ++ n
    if goHasSuf p ".tmp" then []
    else if goHasPre p pfx then [p]
    else []
  | .dir n children =>
    let p := curRel ++ n
    if goHasSuf p ".tmp" then localWalkList pfx (p ++ "/") children
    else if p.length ≥ pfx.length ∧ goHasPre p pfx = false then []
    else localWalkList pfx (p ++ "/") children

/-- The traversal over a sibling list. -/
def localWalkList (pfx curRel : String) : List FsEntry → List String
  | [] => []
  | e :: rest => localWalkEntry pfx curRel e ++ localWalkList pfx curRel rest

end

/- ### S3Store objects: FileExists / WriteObject / OpenObject

The S3 bucket is modelled as a map from object keys to the bytes the store
uploaded under them. `WriteObject` streams `compressedCopy` through a pipe
into the uploader; its net effect on the bucket is one key replaced by the
compressed bytes (S3 object replacement is all-or-nothing). -/

/-- An `S3Store` handle: key prefix `path` plus the embedded `commonStore`
configuration, by value. -/
structure S3Cfg where
  path : String
  extension : String
  compressionType : String
  overwrite : Bool
deriving Repr, DecidableEq

/-- `S3Store.ObjectPath`. -/
def S3Cfg.objectPath (s : S3Cfg) (name : String) : String :=
  pathJoin s.path (pathWithExt s.extension name)

/-- `S3Store.FileExists`: `HeadObject` on the physical key; the backend's
`"NotFound"` code maps to `(false, nil)`. -/
def S3Cfg.fileExists (s : S3Cfg) (bucket : List (String × Bytes))
    (base : String) : Bool :=
  (mapGet bucket (s.objectPath base)).isSome

/-- `S3Store.WriteObject`: existence check first; a silent no-op when the
object exists and overwrite is off; otherwise the object at the physical key
is replaced by the compressed copy of the content. -/
def S3Cfg.writeObject (gz zs : CodecImpl) (s : S3Cfg)
    (bucket : List (String × Bytes)) (base : String) (f : Bytes) :
    List (String × Bytes) :=
  if s.fileExists bucket base ∧ s.overwrite = false then bucket
  else mapSet bucket (s.objectPath base)
    (compressedCopy gz zs s.compressionType f)

/-- `S3Store.OpenObject`: `GetObject` on the physical key; the backend's
`NoSuchKey` is normalized to `ErrNotFound`; otherwise the stored bytes are
seen through the decompressing reader. -/
def S3Cfg.openObject (gz zs : CodecImpl) (s : S3Cfg)
    (bucket : List (String × Bytes)) (name : String) : Except GoErr Bytes :=
  match mapGet bucket (s.objectPath name) with
  | none => .error .errNotFound
  | some stored => .ok (uncompressedReader gz zs s.compressionType stored)

/- ### The `*commonStore` pointer: SubStore and Clone configuration sharing

`commonStore` is held by pointer in every store struct and `SetOverwrite`
mutates it in place, so configuration sharing is observable. The heap of
`commonStore` cells is explicit here: a handle holds an index into it. -/

/-- The `commonStore` configuration fields. -/
structure CommonCfg where
  extension : String
  compressionType : String
  overwrite : Bool
deriving Repr, DecidableEq

instance : Inhabited CommonCfg := ⟨⟨"", "", false⟩⟩

/-- The heap of allocated `commonStore` cells. -/
abbrev CfgHeap := List CommonCfg

/-- Dereference a `*commonStore`. -/
def heapGet (h : CfgHeap) (p : Nat) : CommonCfg := h.getD p default

/-- `commonStore.SetOverwrite` through the pointer. -/
def setOverwrite (h : CfgHeap) (p : Nat) (b : Bool) : CfgHeap :=
  h.set p { heapGet h p with overwrite := b }

/-- A `MemoryStore` handle: its `*commonStore` and its data map. -/
structure MemHandle where
  cfgPtr : Nat
  data : List (String × Bytes)
deriving Repr, DecidableEq

/-- `MemoryStore.SubStore`: the new store reuses the parent's `commonStore`
pointer (`commonStore: m.commonStore`); the data map is filtered and
re-keyed. -/
def memSubStore (m : MemHandle) (subFolder : String) : MemHandle :=
  { cfgPtr := m.cfgPtr
    data := (m.data.filter (fun kv => goHasPre kv.1 subFolder)).map
      (fun kv => (goTrimPre kv.1 subFolder, kv.2)) }

/-- `MemoryStore.Clone`: `newMemoryStoreContext` allocates a fresh
`commonStore` initialized from the parent's configuration values; the data
map pointer is shared. -/
def memClone (h : CfgHeap) (m : MemHandle) : CfgHeap × MemHandle :=
  (h ++ [heapGet h m.cfgPtr], { cfgPtr := h.length, data := m.data })

/-- A `LocalStore` handle: its `*commonStore` and base path. -/
structure LocalHandle where
  cfgPtr : Nat
  basePath : String
deriving Repr, DecidableEq

/-- `LocalStore.SubStore`: joins the sub folder onto the base path and calls
`NewLocalStore`, which builds a fresh `commonStore` from the parent's
configuration values. -/
def localSubStore (h : CfgHeap) (m : LocalHandle) (subFolder : String) :
    CfgHeap × LocalHandle :=
  (h ++ [heapGet h m.cfgPtr],
   { cfgPtr := h.length, basePath := pathJoin m.basePath subFolder })

/- ### PushLocalFile: event traces

`pushLocalFile` opens the local file, writes it to the store, and hands back
a `removeFunc`; each store's `PushLocalFile` invokes that function — deleting
the local source — only along its success paths. The control flow of the Go
code is mirrored as a trace of externally visible events, with the outcomes
of the effectful steps (`os.Open`, `WriteObject`, `FileExists`) supplied as
oracle inputs. -/

/-- Externally visible events of a push-local-file run. -/
inductive PushEvent where
  | openAttempt : Bool → PushEvent
  | writeAttempt : Bool → PushEvent
  | recheck : Bool → PushEvent
  | recheckFailed : PushEvent
  | removeSource : PushEvent
deriving Repr, DecidableEq

/-- The shared helper `pushLocalFile`: open (may fail), write (may fail),
and only then return the remove closure — no removal happens here. The trace
of a single helper invocation, and the error it returns. -/
def pushHelperTrace (openOk writeOk : Bool) : List PushEvent × Option GoErr :=
  if openOk = false then ([.openAttempt false], some (.errMsg "open file"))
  else if writeOk = false then
    ([.openAttempt true, .writeAttempt false], some (.errMsg "writing to storage"))
  else ([.openAttempt true, .writeAttempt true], none)

/-- A plain store's `PushLocalFile` (memory, mock, local, azure):
`pushLocalFile` then, on success only, `remove()`. -/
def memPushTrace (openOk writeOk : Bool) : List PushEvent × Option GoErr :=
  let first := pushHelperTrace openOk writeOk
  match first.2 with
  | some e => (first.1, some e)
  | none => (first.1 ++ [.removeSource], none)

/-- `S3Store.PushLocalFile`: when the push-and-verify retry delay is
configured, the store sleeps, re-checks existence (which may itself fail, or
report the object missing under read-after-write lag), pushes a second time
when absent, and removes the source only after the surviving successful
write. -/
def s3PushTrace (retryConfigured openOk writeOk : Bool)
    (recheckResult : Except GoErr Bool) (open2Ok write2Ok : Bool) :
    List PushEvent × Option GoErr :=
  let first := pushHelperTrace openOk writeOk
  if retryConfigured then
    match recheckResult with
    | .error e => (first.1 ++ [.recheckFailed], some e)
    | .ok true =>
      match first.2 with
      | some e => (first.1 ++ [.recheck true], some e)
      | none => (first.1 ++ [.recheck true, .removeSource], none)
    | .ok false =>
      let second := pushHelperTrace open2Ok write2Ok
      match second.2 with
      | some e => (first.1 ++ [.recheck false] ++ second.1, some e)
      | none => (first.1 ++ [.recheck false] ++ second.1 ++ [.removeSource], none)
  else
    match first.2 with
    | some e => (first.1, some e)
    | none => (first.1 ++ [.removeSource], none)

/-- Trace soundness check: every `removeSource` event must be preceded by a
successful `writeAttempt` with no failed write in between, and, when
`needRecheck` is set, by an existence re-check. `sawWrite`/`sawRecheck`
carry the scan state. -/
def checkTrace (needRecheck : Bool) : Bool → Bool → List PushEvent → Bool
  | _, _, [] => true
  | sawWrite, sawRecheck, e :: rest =>
    match e with
    | .removeSource =>
      (sawWrite && (!needRecheck || sawRecheck)) &&
        checkTrace needRecheck sawWrite sawRecheck rest
    | .writeAttempt ok => checkTrace needRecheck ok sawRecheck rest
    | .recheck _ => checkTrace needRecheck sawWrite true rest
    | _ => checkTrace needRecheck sawWrite sawRecheck rest

/- ### Gate lemmas for commonWalkFrom -/

theorem walkFromVisit_gate_open (s : String) (l : List String) :
    walkFromVisit s true l = l := by
  induction l with
  | nil => rfl
  | cons n rest ih => simp [walkFromVisit, ih]

theorem walkFromVisit_eq_dropWhile (s : String) (l : List String) :
    walkFromVisit s false l = l.dropWhile (fun n => goStrLt n s) := by
  induction l with
  | nil => rfl
  | cons n rest ih =>
    by_cases h : goStrLe s n = true
    · have hlt : goStrLt n s = false := by
        simpa [goStrLe] using h
      simp [walkFromVisit, h, List.dropWhile_cons, hlt, walkFromVisit_gate_open]
    · have hlt : goStrLt n s = true := by
        simp only [goStrLe, Bool.not_eq_true', Bool.not_eq_false] at h
        simpa using h
      simp [walkFromVisit, h, List.dropWhile_cons, hlt, ih]

/-- Truncating the last character yields a strictly smaller string. -/
theorem goStrLtL_take_pred (l : List Char) (h : l ≠ []) :
    goStrLtL (l.take (l.length - 1)) l = true := by
  induction l with
  | nil => exact absurd rfl h
  | cons c cs ih =>
    cases cs with
    | nil => simp [goStrLtL]
    | cons d ds =>
      have hne : (d :: ds) ≠ [] := by simp
      have hrec := ih hne
      have hlen : (c :: d :: ds).length - 1 = (d :: ds).length := by simp
      rw [hlen]
      have htake : (c :: d :: ds).take (d :: ds).length =
          c :: (d :: ds).take ((d :: ds).length - 1) := by
        simp [List.take_cons]
      rw [htake]
      simp only [List.length_cons, Nat.add_sub_cancel] at hrec
      simp [goStrLtL, hrec]

/-- On an ascending-sorted list, keeping the names at or past `s` is the same
as dropping the strict prefix of names below `s`. -/
theorem filter_eq_dropWhile_sorted (s : String) (l : List String)
    (hs : l.Pairwise goLe) :
    l.filter (fun k => !goStrLt k s) = l.dropWhile (fun k => goStrLt k s) := by
  induction l with
  | nil => rfl
  | cons x rest ih =>
    rcases List.pairwise_cons.mp hs with ⟨hx, hrest⟩
    by_cases h : goStrLt x s = true
    · simp [List.filter_cons, List.dropWhile_cons, h, ih hrest]
    · have h' : goStrLt x s = false := by simpa using h
      simp only [List.filter_cons, List.dropWhile_cons, h', Bool.not_false,
        if_true, Bool.false_eq_true, if_false]
      have hrestEq : rest.filter (fun k => !goStrLt k s) = rest := by
        rw [List.filter_eq_self]
        intro k hk
        have hxk : goStrLt k x = false := by
          have := hx k hk
          simpa [goLe, goStrLe] using this
        by_cases hks : goStrLt k s = true
        · exfalso
          rw [goStrLt] at hks
          rcases Bool.eq_false_or_eq_true (goStrLt x k) with hxk' | hxk'
          · rw [goStrLt] at hxk'
            have hxs : goStrLtL x.data s.data = true :=
              goStrLtL_trans _ _ _ hxk' hks
            rw [goStrLt, hxs] at h'
            exact Bool.true_eq_false.mp h'
          · rw [goStrLt] at hxk'
            have heq : x.data = k.data := goStrLtL_connex _ _ hxk' hxk
            rw [goStrLt, heq, hks] at h'
            exact Bool.true_eq_false.mp h'
        · have hks' : goStrLt k s = false := by simpa using hks
          simp [hks']
      rw [hrestEq]

/- ### S3 WalkFrom evaluation under an empty store path and extension -/

theorem goHasPre_empty (k : String) : goHasPre k "" = true := by
  rw [goHasPre]
  show List.isPrefixOf [] k.data = true
  cases k.data <;> rfl

theorem goStrLt_empty_right (n : String) : goStrLt n "" = false := by
  rw [goStrLt]
  cases n.data <;> rfl

theorem s3ToBaseName_id (k : String) (hk : k.data.head? ≠ some '/') :
    s3ToBaseName "" "" k = k := by
  have h2 : goTrimSuf k "" = k := by
    apply String.ext
    rw [goTrimSuf, data_mk, trimSufL]
    have hsuf : List.isSuffixOf [] k.data = true := by
      rw [List.isSuffixOf_iff_suffix]
      exact List.nil_suffix
    simp [hsuf, List.take_length]
  rw [s3ToBaseName]
  show goTrimPre (goTrimSuf k (pathWithExt "" "")) ("" ++ "/") = k
  have hpw : pathWithExt "" "" = "" := rfl
  rw [hpw, h2]
  have hsl : ("" ++ "/" : String) = "/" := by
    apply String.ext
    simp [String.data_append]
  rw [hsl]
  rw [goTrimPre]
  have hpre : (("/" : String)).data.isPrefixOf k.data = false := by
    cases hd : k.data with
    | nil => rfl
    | cons c rest =>
      rw [hd] at hk
      have hc : c ≠ '/' := by
        intro hceq
        exact hk (by simp [hceq])
      have hbeq : (('/' : Char) == c) = false := by
        simp only [beq_eq_false_iff_ne, ne_eq]
        exact fun hcc => hc hcc.symm
      show (['/'] : List Char).isPrefixOf (c :: rest) = false
      simp [List.isPrefixOf, hbeq]
  rw [trimPreL, hpre]
  simp [mk_data]

theorem dropWhile_goStrLt_empty (l : List String) :
    l.dropWhile (fun n => goStrLt n "") = l := by
  cases l with
  | nil => rfl
  | cons x rest => simp [List.dropWhile_cons, goStrLt_empty_right]

theorem s3Walk_all (objects : List String)
    (hhead : ∀ k ∈ objects, k.data.head? ≠ some '/')
    (hne : ∀ k ∈ objects, k ≠ "") :
    s3WalkFrom "" "" objects "" "" = (objects, none) := by
  rw [s3WalkFrom]
  simp only [ne_eq, not_true_eq_false, false_and, if_false, ite_false]
  have hfil1 : objects.filter (fun k => goHasPre k (s3TargetPre "" "")) = objects := by
    rw [List.filter_eq_self]
    intro k _
    exact goHasPre_empty k
  have hmap : objects.map (fun k => s3ToBaseName "" "" k) = objects := by
    rw [List.map_congr_left (fun k hk => s3ToBaseName_id k (hhead k hk))]
    exact List.map_id objects
  simp only [hfil1]
  have hfil2 : objects.filter (fun k => true) = objects := List.filter_true objects
  rw [hfil2, hmap]
  have hfil3 : objects.filter
      (fun fn => decide ¬fn = "" && (decide True || !goStrLt fn "")) = objects := by
    rw [List.filter_eq_self]
    intro k hk
    simp [hne k hk]
  rw [hfil3]

theorem s3WalkFrom_dropWhile (objects : List String) (s : String)
    (hsorted : objects.Pairwise goLe)
    (hhead : ∀ k ∈ objects, k.data.head? ≠ some '/')
    (hne : ∀ k ∈ objects, k ≠ "") :
    s3WalkFrom "" "" objects "" s =
      (objects.dropWhile (fun n => goStrLt n s), none) := by
  by_cases hs : s = ""
  · subst hs
    rw [s3Walk_all objects hhead hne, dropWhile_goStrLt_empty]
  · rw [s3WalkFrom]
    have hcheck : ¬(s ≠ "" ∧ goHasPre s "" = false) := by
      rintro ⟨-, h2⟩
      rw [goHasPre_empty] at h2
      exact Bool.true_eq_false.mp h2
    rw [if_neg hcheck]
    have hrel : goTrimPre s "" = s := by
      apply String.ext
      rw [goTrimPre, data_mk, trimPreL]
      have : List.isPrefixOf ([] : List Char) s.data = true := by
        cases s.data <;> rfl
      simp [this]
    dsimp only
    rw [hrel]
    by_cases hlen : s.data.length > 1
    · rw [if_pos ⟨hs, hlen⟩]
      have htp : s3TargetPre "" "" = "" := rfl
      rw [htp]
      have hsd : s.data ≠ [] := by
        intro hd
        exact hs (String.ext hd)
      have hmlt : goStrLt (String.mk (s.data.take (s.data.length - 1))) s = true := by
        rw [goStrLt, data_mk]
        exact goStrLtL_take_pred s.data hsd
      have hmdat : ("" ++ String.mk (s.data.take (s.data.length - 1))) =
          String.mk (s.data.take (s.data.length - 1)) := by
        apply String.ext
        simp [String.data_append]
      rw [hmdat]
      have hfil1 : objects.filter (fun k => goHasPre k "") = objects := by
        rw [List.filter_eq_self]
        intro k _
        exact goHasPre_empty k
      rw [hfil1]
      have hfil2 : objects.filter
          (fun k => match some (String.mk (s.data.take (s.data.length - 1))), k with
            | none, k => true
            | some m, k => goStrLt m k) =
          objects.filter (fun k => goStrLt (String.mk (s.data.take (s.data.length - 1))) k) := by
        apply List.filter_congr
        intro k _
        rfl
      rw [hfil2]
      have hmap : (objects.filter
            (fun k => goStrLt (String.mk (s.data.take (s.data.length - 1))) k)).map
          (fun k => s3ToBaseName "" "" k) =
          objects.filter (fun k => goStrLt (String.mk (s.data.take (s.data.length - 1))) k) := by
        rw [List.map_congr_left
          (fun k hk => s3ToBaseName_id k (hhead k (List.mem_filter.mp hk).1))]
        exact List.map_id _
      rw [hmap]
      rw [List.filter_filter]
      have hdec : decide (s = "") = false := by
        simp [hs]
      have hfin : objects.filter
          (fun k => (decide (k ≠ "") && (decide (s = "") || !goStrLt k s)) &&
            goStrLt (String.mk (s.data.take (s.data.length - 1))) k) =
          objects.filter (fun k => !goStrLt k s) := by
        apply List.filter_congr
        intro k hk
        have hkne : decide (k ≠ "") = true := by
          simp [hne k hk]
        rw [hkne, hdec]
        rcases Bool.eq_false_or_eq_true (goStrLt k s) with hks | hks
        · rw [hks]
          rfl
        · have hmk : goStrLt (String.mk (s.data.take (s.data.length - 1))) k = true := by
            rcases Bool.eq_false_or_eq_true
                (goStrLt (String.mk (s.data.take (s.data.length - 1))) k) with hmk' | hmk'
            · exact hmk'
            · exfalso
              rw [goStrLt] at hmk' hmlt
              rw [goStrLt] at hks
              rcases Bool.eq_false_or_eq_true
                  (goStrLtL k.data (String.mk (s.data.take (s.data.length - 1))).data)
                  with hkm | hkm
              · have hlt : goStrLtL k.data s.data = true := goStrLtL_trans _ _ _ hkm hmlt
                rw [hlt] at hks
                exact Bool.true_eq_false.mp hks
              · have heq := goStrLtL_connex _ _ hmk' hkm
                rw [heq] at hmlt
                rw [hmlt] at hks
                exact Bool.true_eq_false.mp hks
          rw [hks, hmk]
          rfl
      rw [hfin, filter_eq_dropWhile_sorted s objects hsorted]
    · rw [if_neg (by
        rintro ⟨-, h2⟩
        exact hlen h2)]
      have hfil1 : objects.filter (fun k => goHasPre k (s3TargetPre "" "")) = objects := by
        rw [List.filter_eq_self]
        intro k _
        exact goHasPre_empty k
      rw [hfil1]
      have hfil2 : objects.filter
          (fun k => match (none : Option String), k with
            | none, k => true
            | some m, k => goStrLt m k) = objects := by
        rw [List.filter_eq_self]
        intro k _
        rfl
      rw [hfil2]
      have hmap : objects.map (fun k => s3ToBaseName "" "" k) = objects := by
        rw [List.map_congr_left (fun k hk => s3ToBaseName_id k (hhead k hk))]
        exact List.map_id objects
      rw [hmap]
      have hdec : decide (s = "") = false := by
        simp [hs]
      have hfin : objects.filter
          (fun fn => decide (fn ≠ "") && (decide (s = "") || !goStrLt fn s)) =
          objects.filter (fun fn => !goStrLt fn s) := by
        apply List.filter_congr
        intro k hk
        simp [hne k hk, hdec]
      rw [hfin, filter_eq_dropWhile_sorted s objects hsorted]

/- ### Claim theorems -/

/-- C4. A non-empty starting point that does not start with the prefix is
rejected synchronously as an invalid-usage error: both the shared
`commonWalkFrom` and `S3Store.WalkFrom` return the error for every possible
walk output / bucket listing (so no enumeration is consulted) and the visit
callback is never invoked. -/
theorem walkFrom_bad_startingPoint (pfx startPt : String)
    (hne : startPt ≠ "") (hnp : goHasPre startPt pfx = false) :
    (∀ walkOut : List String × Option GoErr,
      commonWalkFrom walkOut pfx startPt =
        ([], some (.errMsg ("starting point \"" ++ startPt ++
          "\" must start with prefix \"" ++ pfx ++ "\"")))) ∧
    (∀ (storePath ext : String) (objects : List String),
      s3WalkFrom storePath ext objects pfx startPt =
        ([], some (.errMsg ("starting point \"" ++ startPt ++
          "\" must start with prefix \"" ++ pfx ++ "\"")))) := by
  constructor
  · intro walkOut
    rw [commonWalkFrom, if_pos ⟨hne, hnp⟩]
  · intro storePath ext objects
    rw [s3WalkFrom]
    dsimp only
    rw [if_pos ⟨hne, hnp⟩]

/-- C4 witness: Scenario C — `WalkFrom("0000", "0001/0002")` fails with the
invalid-usage error before visiting anything, for two different walk
outputs. -/
theorem walkFrom_bad_startingPoint_witness :
    commonWalkFrom (["0000a"], none) "0000" "0001/0002" =
      ([], some (.errMsg "starting point \"0001/0002\" must start with prefix \"0000\"")) ∧
    commonWalkFrom ([], some .errNotFound) "0000" "0001/0002" =
      ([], some (.errMsg "starting point \"0001/0002\" must start with prefix \"0000\"")) ∧
    s3WalkFrom "base" "zst" ["base/x"] "0000" "0001/0002" =
      ([], some (.errMsg "starting point \"0001/0002\" must start with prefix \"0000\"")) := by
  have h := walkFrom_bad_startingPoint "0000" "0001/0002" (by decide) (by decide)
  exact ⟨h.1 (["0000a"], none), h.1 ([], some .errNotFound), h.2 "base" "zst" ["base/x"]⟩

/-- C6. Writing a byte sequence through `compressedCopy` and reading it back
through `uncompressedReader` returns exactly the original bytes, for every
codec selection (gzip, zstd, or none — any other `compressionType` string),
given the external codec libraries' round-trip contracts. -/
theorem codec_pipeline_roundTrip (gz zs : CodecImpl)
    (hgz : ∀ b, gz.dec (gz.enc b) = b) (hzs : ∀ b, zs.dec (zs.enc b) = b)
    (compressionType : String) (b : Bytes) :
    uncompressedReader gz zs compressionType
      (compressedCopy gz zs compressionType b) = b :=
  codec_roundTrip gz zs hgz hzs compressionType b

/-- C6 witness: the concrete invertible header codec on `[3, 1, 4]`, for each
of the three codec selections. -/
theorem codec_pipeline_roundTrip_witness :
    uncompressedReader headerCodec headerCodec "gzip"
      (compressedCopy headerCodec headerCodec "gzip" [3, 1, 4]) = [3, 1, 4] ∧
    uncompressedReader headerCodec headerCodec "zstd"
      (compressedCopy headerCodec headerCodec "zstd" [3, 1, 4]) = [3, 1, 4] ∧
    uncompressedReader headerCodec headerCodec ""
      (compressedCopy headerCodec headerCodec "" [3, 1, 4]) = [3, 1, 4] :=
  ⟨codec_pipeline_roundTrip headerCodec headerCodec
      (fun b => headerCodec_roundTrip b) (fun b => headerCodec_roundTrip b)
      "gzip" [3, 1, 4],
   codec_pipeline_roundTrip headerCodec headerCodec
      (fun b => headerCodec_roundTrip b) (fun b => headerCodec_roundTrip b)
      "zstd" [3, 1, 4],
   codec_pipeline_roundTrip headerCodec headerCodec
      (fun b => headerCodec_roundTrip b) (fun b => headerCodec_roundTrip b)
      "" [3, 1, 4]⟩

/-- C10. `MemoryStore.DeleteObject` is total and idempotent: for every store
state and every name — written or not — it returns `nil` (never `NotFound`),
afterwards `FileExists` reports `false`, and deleting again returns the same
state. -/
theorem memStore_delete_total_idempotent (st : MemStore) (base : String) :
    ∃ st', st.deleteObject base = .ok st' ∧
      st'.fileExists base = false ∧
      st'.deleteObject base = .ok st' := by
  refine ⟨_, rfl, ?_, ?_⟩
  · simp [MemStore.fileExists, MemStore.deleteObject, mapGet_mapDel_self]
  · simp [MemStore.deleteObject, mapDel_idem]

/-- Helper for C7: the `*PathError` message produced by opening a missing
file always trips the `ContainsAny` check. -/
theorem containsAny_notFound_msg (p : String) :
    goContainsAny ("open " ++ p ++ ": no such file or directory")
      notFoundCutset = true := by
  rw [goContainsAny, List.any_eq_true]
  refine ⟨'n', by decide, ?_⟩
  have hmem : ('n' : Char) ∈ ("open " ++ p ++ ": no such file or directory").data := by
    rw [String.data_append, String.data_append]
    apply List.mem_append_left
    apply List.mem_append_left
    decide
  show List.elem 'n' ("open " ++ p ++ ": no such file or directory").data = true
  exact List.elem_iff.mpr hmem

/-- C7. Opening a never-written name fails with the single normalized
`ErrNotFound` value, on the in-memory store (direct map lookup) and on the
local store (whose backend `os.Open` error is normalized through the
`ContainsAny` check) alike. -/
theorem openObject_never_written_notFound (gz zs : CodecImpl)
    (st : MemStore) (name : String) (hmem : mapGet st.data name = none)
    (cfg : LocalCfg) (fs : List (String × Bytes)) (lname : String)
    (hfs : mapGet fs (cfg.objectPath lname) = none) :
    st.openObject gz zs name = .error .errNotFound ∧
    cfg.openObject gz zs fs lname = .error .errNotFound := by
  constructor
  · rw [MemStore.openObject, hmem]
  · rw [LocalCfg.openObject]
    dsimp only
    rw [hfs]
    rw [if_pos (containsAny_notFound_msg (cfg.objectPath lname))]

/-- C7 witness: empty memory store and empty local filesystem. -/
theorem openObject_never_written_notFound_witness :
    MemStore.openObject headerCodec headerCodec ⟨"", "", false, [], []⟩ "x" =
      .error .errNotFound ∧
    LocalCfg.openObject headerCodec headerCodec ⟨"/b", "", "", false⟩ [] "y" =
      .error .errNotFound :=
  openObject_never_written_notFound headerCodec headerCodec
    ⟨"", "", false, [], []⟩ "x" rfl ⟨"/b", "", "", false⟩ [] "y" rfl

/-- C1 counterexample: `LocalStore.WriteObject` performs no overwrite-policy
check — on a local store constructed with `overwrite = false`, writing `[1]`
and then `[2]` to the same name leaves `[2]` visible to a subsequent read,
not `[1]` as the claim requires of every store. -/
theorem localStore_overwrite_ignored_counterexample :
    (⟨"/b", "", "", false⟩ : LocalCfg).overwrite = false ∧
    LocalCfg.openObject headerCodec headerCodec ⟨"/b", "", "", false⟩
      (LocalCfg.writeObject headerCodec headerCodec ⟨"/b", "", "", false⟩
        (LocalCfg.writeObject headerCodec headerCodec ⟨"/b", "", "", false⟩
          [] "x" [1]) "x" [2]) "x" = .ok [2] ∧
    (Except.ok [2] : Except GoErr Bytes) ≠ .ok [1] := by
  refine ⟨rfl, ?_, by simp⟩
  rfl

/-- Helper: reading a name bound in the memory store's data map yields the
stored bytes through the decompressing reader. -/
theorem memOpen_of_mapGet (gz zs : CodecImpl) (st : MemStore) (name : String)
    (v : Bytes) (h : mapGet st.data name = some v) :
    st.openObject gz zs name =
      .ok (uncompressedReader gz zs st.compressionType v) := by
  rw [MemStore.openObject, h]

/-- Helper: reading a key bound in the S3 bucket yields the stored bytes
through the decompressing reader. -/
theorem s3Open_of_mapGet (gz zs : CodecImpl) (s : S3Cfg)
    (bucket : List (String × Bytes)) (name : String) (v : Bytes)
    (h : mapGet bucket (s.objectPath name) = some v) :
    s.openObject gz zs bucket name =
      .ok (uncompressedReader gz zs s.compressionType v) := by
  rw [S3Cfg.openObject, h]

/-- C1 (amended). For the cited stores whose `WriteObject` enforces the
overwrite flag — `MemoryStore` (a direct map update guarded by the
`!overwrite && exists` check) and `S3Store` (an existence check followed by a
silent no-op under `overwrite=false`) — writing `A` then `B` to a fresh name
under `overwrite = false` leaves a subsequent read observing `A`, and under
`overwrite = true` observing `B`; `LocalStore.WriteObject` ignores the flag
entirely, so on the local store a subsequent read observes `B` regardless of
the flag. -/
theorem overwrite_policy_amended (gz zs : CodecImpl)
    (hgz : ∀ b, gz.dec (gz.enc b) = b) (hzs : ∀ b, zs.dec (zs.enc b) = b)
    (st : MemStore) (base : String) (A B : Bytes) (n₁ n₂ : Nat)
    (hfresh : mapGet st.data base = none) :
    (st.overwrite = false →
      ((st.writeObject gz zs base A n₁).writeObject gz zs base B n₂).openObject
        gz zs base = .ok A) ∧
    (st.overwrite = true →
      ((st.writeObject gz zs base A n₁).writeObject gz zs base B n₂).openObject
        gz zs base = .ok B) ∧
    (∀ (s3 : S3Cfg) (bucket : List (String × Bytes)) (sname : String),
      mapGet bucket (s3.objectPath sname) = none →
      (s3.overwrite = false →
        s3.openObject gz zs
          (s3.writeObject gz zs (s3.writeObject gz zs bucket sname A) sname B)
          sname = .ok A) ∧
      (s3.overwrite = true →
        s3.openObject gz zs
          (s3.writeObject gz zs (s3.writeObject gz zs bucket sname A) sname B)
          sname = .ok B)) ∧
    (∀ (cfg : LocalCfg) (fs : List (String × Bytes)) (name : String),
      cfg.openObject gz zs
        (cfg.writeObject gz zs (cfg.writeObject gz zs fs name A) name B) name =
        .ok B) := by
  have h1 : ¬((mapGet st.data base).isSome ∧ st.overwrite = false) := by
    rintro ⟨h, -⟩
    rw [hfresh] at h
    simp at h
  have e1 : st.writeObject gz zs base A n₁ =
      { st with
        data := mapSet st.data base (compressedCopy gz zs st.compressionType A)
        modified := mapSet st.modified base n₁ } := by
    rw [MemStore.writeObject, if_neg h1]
  refine ⟨?_, ?_, ?_, ?_⟩
  · intro hov
    have h2 : (mapGet (st.writeObject gz zs base A n₁).data base).isSome ∧
        (st.writeObject gz zs base A n₁).overwrite = false := by
      rw [e1]
      refine ⟨?_, hov⟩
      show (mapGet (mapSet st.data base _) base).isSome = true
      rw [mapGet_mapSet_self]
      rfl
    have e2 : (st.writeObject gz zs base A n₁).writeObject gz zs base B n₂ =
        st.writeObject gz zs base A n₁ := by
      rw [MemStore.writeObject, if_pos h2]
    rw [e2]
    have hget : mapGet (st.writeObject gz zs base A n₁).data base =
        some (compressedCopy gz zs st.compressionType A) := by
      rw [e1]
      exact mapGet_mapSet_self st.data base _
    have hopen := memOpen_of_mapGet gz zs (st.writeObject gz zs base A n₁) base
      _ hget
    rw [hopen, e1]
    show Except.ok (uncompressedReader gz zs st.compressionType
      (compressedCopy gz zs st.compressionType A)) = _
    rw [codec_roundTrip gz zs hgz hzs st.compressionType A]
  · intro hov
    have h2 : ¬((mapGet (st.writeObject gz zs base A n₁).data base).isSome ∧
        (st.writeObject gz zs base A n₁).overwrite = false) := by
      rintro ⟨-, hfalse⟩
      rw [e1] at hfalse
      have hov' : st.overwrite = false := hfalse
      rw [hov] at hov'
      exact Bool.true_eq_false.mp hov'
    have e2 : (st.writeObject gz zs base A n₁).writeObject gz zs base B n₂ =
        { st.writeObject gz zs base A n₁ with
          data := mapSet (st.writeObject gz zs base A n₁).data base
            (compressedCopy gz zs (st.writeObject gz zs base A n₁).compressionType B)
          modified := mapSet (st.writeObject gz zs base A n₁).modified base n₂ } := by
      rw [MemStore.writeObject, if_neg h2]
    rw [e2]
    have hget : mapGet (mapSet (st.writeObject gz zs base A n₁).data base
        (compressedCopy gz zs (st.writeObject gz zs base A n₁).compressionType B))
        base =
        some (compressedCopy gz zs (st.writeObject gz zs base A n₁).compressionType B) :=
      mapGet_mapSet_self _ base _
    have hct : (st.writeObject gz zs base A n₁).compressionType =
        st.compressionType := by
      rw [e1]
    rw [MemStore.openObject]
    show (match mapGet (mapSet (st.writeObject gz zs base A n₁).data base
        (compressedCopy gz zs (st.writeObject gz zs base A n₁).compressionType B))
        base with
      | none => Except.error GoErr.errNotFound
      | some stored => Except.ok (uncompressedReader gz zs
          (st.writeObject gz zs base A n₁).compressionType stored)) = .ok B
    rw [hget, hct]
    show Except.ok (uncompressedReader gz zs st.compressionType
      (compressedCopy gz zs st.compressionType B)) = Except.ok B
    rw [codec_roundTrip gz zs hgz hzs st.compressionType B]
  · intro s3 bucket sname hfresh3
    have hw1 : ¬(s3.fileExists bucket sname ∧ s3.overwrite = false) := by
      rintro ⟨h, -⟩
      rw [S3Cfg.fileExists, hfresh3] at h
      simp at h
    have e1' : s3.writeObject gz zs bucket sname A =
        mapSet bucket (s3.objectPath sname)
          (compressedCopy gz zs s3.compressionType A) := by
      rw [S3Cfg.writeObject, if_neg hw1]
    constructor
    · intro hov
      have h2 : s3.fileExists (s3.writeObject gz zs bucket sname A) sname ∧
          s3.overwrite = false := by
        refine ⟨?_, hov⟩
        rw [S3Cfg.fileExists, e1', mapGet_mapSet_self]
        rfl
      have e2' : s3.writeObject gz zs (s3.writeObject gz zs bucket sname A)
          sname B = s3.writeObject gz zs bucket sname A := by
        rw [S3Cfg.writeObject, if_pos h2]
      rw [e2']
      have hget : mapGet (s3.writeObject gz zs bucket sname A)
          (s3.objectPath sname) =
          some (compressedCopy gz zs s3.compressionType A) := by
        rw [e1']
        exact mapGet_mapSet_self bucket _ _
      rw [s3Open_of_mapGet gz zs s3 _ sname _ hget,
        codec_roundTrip gz zs hgz hzs s3.compressionType A]
    · intro hov
      have h2 : ¬(s3.fileExists (s3.writeObject gz zs bucket sname A) sname ∧
          s3.overwrite = false) := by
        rintro ⟨-, hfalse⟩
        rw [hov] at hfalse
        exact Bool.true_eq_false.mp hfalse
      have e2' : s3.writeObject gz zs (s3.writeObject gz zs bucket sname A)
          sname B =
          mapSet (s3.writeObject gz zs bucket sname A) (s3.objectPath sname)
            (compressedCopy gz zs s3.compressionType B) := by
        rw [S3Cfg.writeObject, if_neg h2]
      rw [e2']
      have hget : mapGet (mapSet (s3.writeObject gz zs bucket sname A)
          (s3.objectPath sname) (compressedCopy gz zs s3.compressionType B))
          (s3.objectPath sname) =
          some (compressedCopy gz zs s3.compressionType B) :=
        mapGet_mapSet_self _ _ _
      rw [s3Open_of_mapGet gz zs s3 _ sname _ hget,
        codec_roundTrip gz zs hgz hzs s3.compressionType B]
  · intro cfg fs name
    rw [LocalCfg.writeObject, LocalCfg.writeObject, LocalCfg.openObject]
    dsimp only
    rw [mapGet_mapSet_self]
    show Except.ok (uncompressedReader gz zs cfg.compressionType
      (compressedCopy gz zs cfg.compressionType B)) = Except.ok B
    rw [codec_roundTrip gz zs hgz hzs cfg.compressionType B]

/-- C1 (amended) witness: concrete runs at a fresh name with the header
codec, for both flag values on the memory and S3 stores and for the local
store. -/
theorem overwrite_policy_amended_witness :
    (MemStore.openObject headerCodec headerCodec
      (MemStore.writeObject headerCodec headerCodec
        (MemStore.writeObject headerCodec headerCodec
          ⟨"", "gzip", false, [], []⟩ "x" [1] 0) "x" [2] 1) "x" = .ok [1]) ∧
    (MemStore.openObject headerCodec headerCodec
      (MemStore.writeObject headerCodec headerCodec
        (MemStore.writeObject headerCodec headerCodec
          ⟨"", "gzip", true, [], []⟩ "x" [1] 0) "x" [2] 1) "x" = .ok [2]) ∧
    (S3Cfg.openObject headerCodec headerCodec ⟨"base", "zst", "gzip", false⟩
      (S3Cfg.writeObject headerCodec headerCodec ⟨"base", "zst", "gzip", false⟩
        (S3Cfg.writeObject headerCodec headerCodec ⟨"base", "zst", "gzip", false⟩
          [] "x" [1]) "x" [2]) "x" = .ok [1]) ∧
    (S3Cfg.openObject headerCodec headerCodec ⟨"base", "zst", "gzip", true⟩
      (S3Cfg.writeObject headerCodec headerCodec ⟨"base", "zst", "gzip", true⟩
        (S3Cfg.writeObject headerCodec headerCodec ⟨"base", "zst", "gzip", true⟩
          [] "x" [1]) "x" [2]) "x" = .ok [2]) ∧
    (LocalCfg.openObject headerCodec headerCodec ⟨"/b", "", "zstd", false⟩
      (LocalCfg.writeObject headerCodec headerCodec ⟨"/b", "", "zstd", false⟩
        (LocalCfg.writeObject headerCodec headerCodec ⟨"/b", "", "zstd", false⟩
          [] "x" [1]) "x" [2]) "x" = .ok [2]) := by
  refine ⟨?_, ?_, ?_, ?_, ?_⟩
  · exact (overwrite_policy_amended headerCodec headerCodec
      (fun b => headerCodec_roundTrip b) (fun b => headerCodec_roundTrip b)
      ⟨"", "gzip", false, [], []⟩ "x" [1] [2] 0 1 rfl).1 rfl
  · exact (overwrite_policy_amended headerCodec headerCodec
      (fun b => headerCodec_roundTrip b) (fun b => headerCodec_roundTrip b)
      ⟨"", "gzip", true, [], []⟩ "x" [1] [2] 0 1 rfl).2.1 rfl
  · exact ((overwrite_policy_amended headerCodec headerCodec
      (fun b => headerCodec_roundTrip b) (fun b => headerCodec_roundTrip b)
      ⟨"", "gzip", false, [], []⟩ "x" [1] [2] 0 1 rfl).2.2.1
      ⟨"base", "zst", "gzip", false⟩ [] "x" rfl).1 rfl
  · exact ((overwrite_policy_amended headerCodec headerCodec
      (fun b => headerCodec_roundTrip b) (fun b => headerCodec_roundTrip b)
      ⟨"", "gzip", true, [], []⟩ "x" [1] [2] 0 1 rfl).2.2.1
      ⟨"base", "zst", "gzip", true⟩ [] "x" rfl).2 rfl
  · exact (overwrite_policy_amended headerCodec headerCodec
      (fun b => headerCodec_roundTrip b) (fun b => headerCodec_roundTrip b)
      ⟨"", "gzip", false, [], []⟩ "x" [1] [2] 0 1 rfl).2.2.2
      ⟨"/b", "", "zstd", false⟩ [] "x"

/- ### C3: MockStore.Walk ordering -/

theorem mockWalkVisit_no_err (pfx : String) (l : List String)
    (h : ∀ x ∈ l, goContains x "err" = false) :
    mockWalkVisit pfx l = (l.filter (fun f => goHasPre f pfx), none) := by
  induction l with
  | nil => rfl
  | cons f rest ih =>
    have hf := h f (List.mem_cons_self f rest)
    have hrest : ∀ x ∈ rest, goContains x "err" = false :=
      fun x hx => h x (List.mem_cons_of_mem f hx)
    by_cases hp : goHasPre f pfx = true
    · simp [mockWalkVisit, hf, hp, ih hrest, List.filter_cons]
    · simp [mockWalkVisit, hf, hp, ih hrest, List.filter_cons]

theorem sortStrings_sorted (l : List String) : (sortStrings l).Pairwise goLe :=
  List.sorted_insertionSort goLe l

theorem sortStrings_perm (l : List String) : (sortStrings l).Perm l :=
  List.perm_insertionSort goLe l

/- The C3 theorems follow the LocalStore.Walk tree lemmas near the end of
the file. -/

/- ### C5: path round-trip -/

theorem trimSufL_nil (x : List Char) : trimSufL x [] = x := by
  have := trimSufL_append x []
  rwa [List.append_nil] at this

/-- C5. For every store configuration with a clean base path and every valid
logical name (one whose physical relative path — the name plus the configured
extension — is a clean relative path; this includes names containing `/`),
translating the name to its physical path and back is the identity:
`toBaseName (ObjectPath name) = name`. -/
theorem toBaseName_objectPath_roundTrip (cfg : LocalCfg) (name : String)
    (hbase : validBase cfg.basePath = true)
    (hwe : validRel (pathWithExt cfg.extension name) = true) :
    cfg.toBaseName (cfg.objectPath name) = name := by
  have hjoin : cfg.objectPath name =
      cfg.basePath ++ "/" ++ pathWithExt cfg.extension name := by
    rw [LocalCfg.objectPath]
    exact pathJoin_eq_append _ _ hbase hwe
  apply String.ext
  rw [LocalCfg.toBaseName, hjoin]
  simp only [goTrimPre, goTrimSuf, data_mk]
  by_cases hext : cfg.extension = ""
  · rw [hext]
    show trimPreL (trimPreL (trimSufL
        (cfg.basePath ++ "/" ++ pathWithExt "" name).data
        (pathWithExt "" "").data) cfg.basePath.data) (("/" : String).data) = name.data
    have hpw : pathWithExt "" name = name := by
      rw [pathWithExt, if_neg (by simp)]
    have hpe : pathWithExt "" "" = "" := by
      rw [pathWithExt, if_neg (by simp)]
    rw [hpw, hpe]
    have hdat : (cfg.basePath ++ "/" ++ name).data =
        cfg.basePath.data ++ '/' :: name.data := by
      simp [String.data_append]
    rw [hdat]
    show trimPreL (trimPreL (trimSufL (cfg.basePath.data ++ '/' :: name.data) [])
      cfg.basePath.data) ['/'] = name.data
    rw [trimSufL_nil, trimPreL_append]
    show trimPreL (['/'] ++ name.data) ['/'] = name.data
    rw [trimPreL_append]
  · show trimPreL (trimPreL (trimSufL
        (cfg.basePath ++ "/" ++ pathWithExt cfg.extension name).data
        (pathWithExt cfg.extension "").data) cfg.basePath.data)
        (("/" : String).data) = name.data
    have hpw : pathWithExt cfg.extension name = name ++ "." ++ cfg.extension := by
      rw [pathWithExt, if_pos hext]
    have hpe : pathWithExt cfg.extension "" = "" ++ "." ++ cfg.extension := by
      rw [pathWithExt, if_pos hext]
    rw [hpw, hpe]
    have hdat : (cfg.basePath ++ "/" ++ (name ++ "." ++ cfg.extension)).data =
        (cfg.basePath.data ++ '/' :: name.data) ++ ('.' :: cfg.extension.data) := by
      simp [String.data_append]
    have hsuf : (("" : String) ++ "." ++ cfg.extension).data =
        '.' :: cfg.extension.data := by
      simp [String.data_append]
    rw [hdat, hsuf, trimSufL_append, trimPreL_append]
    show trimPreL (['/'] ++ name.data) ['/'] = name.data
    rw [trimPreL_append]

/-- C5 witness: base `/tmp/base`, extension `zst`, nested name `a/b`. -/
theorem toBaseName_objectPath_roundTrip_witness :
    validBase "/tmp/base" = true ∧
    validRel (pathWithExt "zst" "a/b") = true ∧
    LocalCfg.toBaseName ⟨"/tmp/base", "zst", "", false⟩
      (LocalCfg.objectPath ⟨"/tmp/base", "zst", "", false⟩ "a/b") = "a/b" :=
  ⟨by decide, by decide,
   toBaseName_objectPath_roundTrip ⟨"/tmp/base", "zst", "", false⟩ "a/b"
     (by decide) (by decide)⟩

/- ### C8: derived-handle configuration -/

theorem heapGet_append_lt (h : CfgHeap) (c : CommonCfg) (p : Nat)
    (hp : p < h.length) : heapGet (h ++ [c]) p = heapGet h p := by
  rw [heapGet, heapGet, List.getD_append h [c] default p hp]

theorem heapGet_set_ne (h : CfgHeap) (p q : Nat) (b : Bool) (hne : p ≠ q) :
    heapGet (setOverwrite h p b) q = heapGet h q := by
  simp only [setOverwrite, heapGet, List.getD_eq_getElem?_getD,
    List.getElem?_set_ne hne]

theorem heapGet_set_self (h : CfgHeap) (p : Nat) (b : Bool)
    (hp : p < h.length) :
    heapGet (setOverwrite h p b) p = { heapGet h p with overwrite := b } := by
  rw [setOverwrite, heapGet, List.getD_eq_getElem?_getD,
    List.getElem?_set_self hp]
  rfl

/-- C8 counterexample: `MemoryStore.SubStore` copies the `commonStore`
*pointer* (`commonStore: m.commonStore`), so `SetOverwrite(true)` on the
derived handle flips the parent handle's overwrite flag from `false` to
`true` — the derived handle does not have its own configuration snapshot. -/
theorem memSubStore_shared_config_counterexample :
    (heapGet [⟨"bin", "zstd", false⟩] (⟨0, [("sub/x", [1])]⟩ : MemHandle).cfgPtr).overwrite
      = false ∧
    (memSubStore ⟨0, [("sub/x", [1])]⟩ "sub/").cfgPtr =
      (⟨0, [("sub/x", [1])]⟩ : MemHandle).cfgPtr ∧
    (heapGet
      (setOverwrite [⟨"bin", "zstd", false⟩]
        (memSubStore ⟨0, [("sub/x", [1])]⟩ "sub/").cfgPtr true)
      (⟨0, [("sub/x", [1])]⟩ : MemHandle).cfgPtr).overwrite = true := by
  refine ⟨rfl, rfl, rfl⟩

/-- C8 (amended). `MemoryStore.Clone` and `LocalStore.SubStore` allocate a
fresh `commonStore` cell, so `SetOverwrite` on the derived handle leaves the
parent's configuration (extension, codec, overwrite flag) unchanged;
`MemoryStore.SubStore`, by contrast, shares the parent's `commonStore`
pointer, so `SetOverwrite` on that derived handle changes the parent's flag
too. -/
theorem derived_config_amended (h : CfgHeap) (m : MemHandle) (lm : LocalHandle)
    (sub : String) (b : Bool) (hm : m.cfgPtr < h.length)
    (hl : lm.cfgPtr < h.length) :
    (heapGet (setOverwrite (memClone h m).1 (memClone h m).2.cfgPtr b) m.cfgPtr =
      heapGet h m.cfgPtr) ∧
    (heapGet (setOverwrite (localSubStore h lm sub).1
        (localSubStore h lm sub).2.cfgPtr b) lm.cfgPtr =
      heapGet h lm.cfgPtr) ∧
    ((memSubStore m sub).cfgPtr = m.cfgPtr ∧
     (heapGet (setOverwrite h (memSubStore m sub).cfgPtr b) m.cfgPtr).overwrite
       = b) := by
  refine ⟨?_, ?_, rfl, ?_⟩
  · rw [memClone]
    have hne : h.length ≠ m.cfgPtr := Nat.ne_of_gt hm
    rw [heapGet_set_ne _ _ _ _ hne, heapGet_append_lt _ _ _ hm]
  · rw [localSubStore]
    have hne : h.length ≠ lm.cfgPtr := Nat.ne_of_gt hl
    rw [heapGet_set_ne _ _ _ _ hne, heapGet_append_lt _ _ _ hl]
  · rw [memSubStore]
    rw [heapGet_set_self h m.cfgPtr b hm]

/-- C8 (amended) witness: a one-cell heap. -/
theorem derived_config_amended_witness :
    (heapGet (setOverwrite (memClone [⟨"bin", "zstd", false⟩] ⟨0, []⟩).1
        (memClone [⟨"bin", "zstd", false⟩] ⟨0, []⟩).2.cfgPtr true) 0 =
      heapGet [⟨"bin", "zstd", false⟩] 0) ∧
    (heapGet (setOverwrite (localSubStore [⟨"bin", "zstd", false⟩] ⟨0, "/b"⟩ "s").1
        (localSubStore [⟨"bin", "zstd", false⟩] ⟨0, "/b"⟩ "s").2.cfgPtr true) 0 =
      heapGet [⟨"bin", "zstd", false⟩] 0) ∧
    ((memSubStore ⟨0, []⟩ "s").cfgPtr = (⟨0, []⟩ : MemHandle).cfgPtr ∧
     (heapGet (setOverwrite [⟨"bin", "zstd", false⟩]
        (memSubStore ⟨0, []⟩ "s").cfgPtr true) 0).overwrite = true) :=
  derived_config_amended [⟨"bin", "zstd", false⟩] ⟨0, []⟩ ⟨0, "/b"⟩ "s" true
    (by decide) (by decide)

/- ### C9: PushLocalFile removal discipline -/

/-- C9. In every push-local-file flow — the plain one and the S3
push-and-verify one, across all outcomes of opening, writing, and the
existence re-check — the local source file is removed only after a
successful `WriteObject` (with no failed write in between), in the verify
flow only after the existence re-check; and whenever the operation returns
an error, no removal has happened (the local source file still exists). -/
theorem pushLocalFile_removes_only_after_write
    (retryConfigured openOk writeOk : Bool) (recheckResult : Except GoErr Bool)
    (open2Ok write2Ok : Bool) :
    (checkTrace false false false (memPushTrace openOk writeOk).1 = true) ∧
    ((memPushTrace openOk writeOk).2 ≠ none →
      PushEvent.removeSource ∉ (memPushTrace openOk writeOk).1) ∧
    (checkTrace retryConfigured false false
      (s3PushTrace retryConfigured openOk writeOk recheckResult
        open2Ok write2Ok).1 = true) ∧
    ((s3PushTrace retryConfigured openOk writeOk recheckResult
        open2Ok write2Ok).2 ≠ none →
      PushEvent.removeSource ∉
        (s3PushTrace retryConfigured openOk writeOk recheckResult
          open2Ok write2Ok).1) := by
  have hNoRetry : ∀ (o w o2 w2 : Bool) (r : Except GoErr Bool),
      s3PushTrace false o w r o2 w2 = memPushTrace o w := by
    intro o w o2 w2 r
    rcases r with e | ex <;> rcases o <;> rcases w <;> rfl
  have hRecheckErr : ∀ (o w o2 w2 : Bool) (e : GoErr),
      s3PushTrace true o w (.error e) o2 w2 =
        ((pushHelperTrace o w).1 ++ [.recheckFailed], some e) := by
    intro o w o2 w2 e
    rcases o <;> rcases w <;> rfl
  refine ⟨?_, ?_, ?_, ?_⟩
  · rcases openOk <;> rcases writeOk <;> decide
  · rcases openOk <;> rcases writeOk <;>
      first
      | exact fun h => by decide
      | exact fun h => absurd rfl h
  · rcases retryConfigured
    · rw [hNoRetry]
      rcases openOk <;> rcases writeOk <;> decide
    · rcases recheckResult with e | ex
      · rw [hRecheckErr]
        rcases openOk <;> rcases writeOk <;> (dsimp only; decide)
      · rcases ex <;> rcases openOk <;> rcases writeOk <;>
          rcases open2Ok <;> rcases write2Ok <;> decide
  · rcases retryConfigured
    · rw [hNoRetry]
      rcases openOk <;> rcases writeOk <;>
        first
        | exact fun h => by decide
        | exact fun h => absurd rfl h
    · rcases recheckResult with e | ex
      · rw [hRecheckErr]
        rcases openOk <;> rcases writeOk <;>
          exact fun h => by dsimp only; decide
      · rcases ex <;> rcases openOk <;> rcases writeOk <;>
          rcases open2Ok <;> rcases write2Ok <;>
          first
          | exact fun h => by decide
          | exact fun h => absurd rfl h

/-- C9 witness: the verify flow with a failed first write, a re-check
reporting the object absent, and a successful second push. -/
theorem pushLocalFile_removes_only_after_write_witness :
    (checkTrace false false false (memPushTrace true false).1 = true) ∧
    ((memPushTrace true false).2 ≠ none →
      PushEvent.removeSource ∉ (memPushTrace true false).1) ∧
    (checkTrace true false false
      (s3PushTrace true true false (.ok false) true true).1 = true) ∧
    ((s3PushTrace true true false (.ok false) true true).2 ≠ none →
      PushEvent.removeSource ∉
        (s3PushTrace true true false (.ok false) true true).1) :=
  pushLocalFile_removes_only_after_write true true false (.ok false) true true

theorem isPrefixOf_of_append_le (x a b : List Char)
    (h : x.isPrefixOf (a ++ b) = true) (hle : x.length ≤ a.length) :
    x.isPrefixOf a = true := by
  induction x generalizing a with
  | nil => cases a <;> rfl
  | cons c xs ih =>
    cases a with
    | nil => simp at hle
    | cons d ds =>
      simp only [List.cons_append, List.isPrefixOf, Bool.and_eq_true] at h ⊢
      refine ⟨h.1, ih ds h.2 ?_⟩
      simpa using hle

mutual

theorem treeFiles_pre (c : String) (e : FsEntry) (q : String)
    (hq : q ∈ treeFiles c e) : ∃ t, q.data = c.data ++ t := by
  cases e with
  | file n =>
    rw [treeFiles] at hq
    rcases List.mem_singleton.mp hq with rfl
    exact ⟨n.data, by simp [String.data_append]⟩
  | dir n children =>
    rw [treeFiles] at hq
    rcases treeFilesList_pre (c ++ n ++ "/") children q hq with ⟨t, ht⟩
    refine ⟨n.data ++ '/' :: t, ?_⟩
    rw [ht]
    simp [String.data_append]

theorem treeFilesList_pre (c : String) (es : List FsEntry) (q : String)
    (hq : q ∈ treeFilesList c es) : ∃ t, q.data = c.data ++ t := by
  cases es with
  | nil => rw [treeFilesList] at hq; cases hq
  | cons e rest =>
    rw [treeFilesList] at hq
    rcases List.mem_append.mp hq with h | h
    · exact treeFiles_pre c e q h
    · exact treeFilesList_pre c rest q h

end

mutual

theorem localWalkEntry_spec (pfx curRel : String) (e : FsEntry) :
    localWalkEntry pfx curRel e =
      (treeFiles curRel e).filter
        (fun p => !goHasSuf p ".tmp" && goHasPre p pfx) := by
  cases e with
  | file n =>
    rw [localWalkEntry, treeFiles]
    by_cases htmp : goHasSuf (curRel ++ n) ".tmp" = true
    · simp [htmp, List.filter_cons]
    · have htmp' : goHasSuf (curRel ++ n) ".tmp" = false := by
        simpa using htmp
      by_cases hp : goHasPre (curRel ++ n) pfx = true
      · simp [htmp', hp, List.filter_cons]
      · have hp' : goHasPre (curRel ++ n) pfx = false := by simpa using hp
        simp [htmp', hp', List.filter_cons]
  | dir n children =>
    rw [localWalkEntry, treeFiles]
    by_cases htmp : goHasSuf (curRel ++ n) ".tmp" = true
    · simp only [htmp, if_true, if_pos]
      exact localWalkList_spec pfx (curRel ++ n ++ "/") children
    · have htmp' : goHasSuf (curRel ++ n) ".tmp" = false := by simpa using htmp
      rw [if_neg (by simp [htmp'])]
      by_cases hskip : (curRel ++ n).length ≥ pfx.length ∧
          goHasPre (curRel ++ n) pfx = false
      · rw [if_pos hskip]
        symm
        rw [List.filter_eq_nil_iff]
        intro q hq
        rcases treeFilesList_pre (curRel ++ n ++ "/") children q hq with ⟨t, ht⟩
        intro hcontra
        simp only [Bool.and_eq_true, Bool.not_eq_true'] at hcontra
        have hqpre : pfx.data.isPrefixOf q.data = true := hcontra.2
        have hqd : q.data = (curRel ++ n).data ++ '/' :: t := by
          rw [ht]
          simp [String.data_append]
        rw [hqd] at hqpre
        have hlen : pfx.data.length ≤ ((curRel ++ n).data).length := hskip.1
        have : pfx.data.isPrefixOf (curRel ++ n).data = true :=
          isPrefixOf_of_append_le _ _ _ hqpre hlen
        rw [goHasPre] at hskip
        rw [hskip.2] at this
        exact Bool.false_ne_true this
      · rw [if_neg hskip]
        exact localWalkList_spec pfx (curRel ++ n ++ "/") children

theorem localWalkList_spec (pfx curRel : String) (es : List FsEntry) :
    localWalkList pfx curRel es =
      (treeFilesList curRel es).filter
        (fun p => !goHasSuf p ".tmp" && goHasPre p pfx) := by
  cases es with
  | nil => rfl
  | cons e rest =>
    rw [localWalkList, treeFilesList, List.filter_append,
      localWalkEntry_spec pfx curRel e, localWalkList_spec pfx curRel rest]

end


/-- C3 counterexample. Two failure modes of the claim: (i) a written name
containing the mock's reserved error sentinel `"err"` matches the empty
prefix but aborts `MockStore.Walk` with an error before the visit callback
is ever invoked; (ii) `LocalStore.Walk` visits in depth-first directory
order, which for the stored names `a/c` and `a-b` yields `["a/c", "a-b"]` —
not ascending lexicographic order, since `"a-b" < "a/c"`. -/
theorem mockWalk_err_counterexample :
    (goHasPre "err" "" = true ∧
     mockWalk [("err", [])] "" = ([], some (.errMsg "mock err, err"))) ∧
    (localWalkList "" "" [.dir "a" [.file "c"], .file "a-b"] = ["a/c", "a-b"] ∧
     goStrLt "a-b" "a/c" = true ∧
     ¬ List.Pairwise goLe ["a/c", "a-b"]) := by
  refine ⟨⟨rfl, rfl⟩, by decide, by decide, ?_⟩
  rw [List.pairwise_cons]
  rintro ⟨h1, -⟩
  have h := h1 "a-b" (by decide)
  rw [goLe] at h
  exact absurd h (by decide)

/-- C3 (amended). (i) Provided no written name contains the substring
`"err"` (the mock's reserved error-injection sentinel), `MockStore.Walk`
succeeds and visits exactly the written names that start with the prefix —
each exactly once, in ascending byte-wise lexicographic order, and no other
name. (ii) `LocalStore.Walk` visits exactly the stored non-`.tmp` files
whose relative path starts with the prefix — each exactly once when the
stored paths are distinct — but in depth-first directory-traversal order
(lexical within each directory), which is not always ascending on the full
name. -/
theorem mockWalk_ordering_amended (files : List (String × Bytes)) (pfx : String)
    (hnodup : (files.map Prod.fst).Nodup)
    (hnoerr : ∀ x ∈ files.map Prod.fst, goContains x "err" = false) :
    ((mockWalk files pfx).2 = none ∧
     (mockWalk files pfx).1.Pairwise goLe ∧
     (mockWalk files pfx).1.Nodup ∧
     (∀ n, n ∈ (mockWalk files pfx).1 ↔
       (n ∈ files.map Prod.fst ∧ goHasPre n pfx = true))) ∧
    (∀ (es : List FsEntry) (lpfx : String),
      localWalkList lpfx "" es =
        (treeFilesList "" es).filter
          (fun p => !goHasSuf p ".tmp" && goHasPre p lpfx) ∧
      ((treeFilesList "" es).Nodup → (localWalkList lpfx "" es).Nodup)) := by
  constructor
  · have hperm := sortStrings_perm (files.map Prod.fst)
    have hnoerr' : ∀ x ∈ sortStrings (files.map Prod.fst),
        goContains x "err" = false :=
      fun x hx => hnoerr x (hperm.mem_iff.mp hx)
    rw [mockWalk, mockWalkVisit_no_err pfx _ hnoerr']
    refine ⟨rfl, ?_, ?_, ?_⟩
    · exact (sortStrings_sorted _).filter _
    · exact (hperm.nodup_iff.mpr hnodup).filter _
    · intro n
      rw [List.mem_filter]
      constructor
      · rintro ⟨hmem, hpre⟩
        exact ⟨hperm.mem_iff.mp hmem, hpre⟩
      · rintro ⟨hmem, hpre⟩
        exact ⟨hperm.mem_iff.mpr hmem, hpre⟩
  · intro es lpfx
    refine ⟨localWalkList_spec lpfx "" es, ?_⟩
    intro hnd
    rw [localWalkList_spec lpfx "" es]
    exact hnd.filter _

/-- C3 (amended) witness: the mock leg on three names with prefix `"a"`, and
the local leg on the tree from the counterexample with an in-flight `.tmp`
file present. -/
theorem mockWalk_ordering_amended_witness :
    (((mockWalk [("b", []), ("a", []), ("ab", [])] "a").2 = none ∧
      (mockWalk [("b", []), ("a", []), ("ab", [])] "a").1.Pairwise goLe ∧
      (mockWalk [("b", []), ("a", []), ("ab", [])] "a").1.Nodup ∧
      (∀ n, n ∈ (mockWalk [("b", []), ("a", []), ("ab", [])] "a").1 ↔
        (n ∈ [("b", ([] : Bytes)), ("a", []), ("ab", [])].map Prod.fst ∧
          goHasPre n "a" = true))) ∧
     (∀ (es : List FsEntry) (lpfx : String),
       localWalkList lpfx "" es =
         (treeFilesList "" es).filter
           (fun p => !goHasSuf p ".tmp" && goHasPre p lpfx) ∧
       ((treeFilesList "" es).Nodup → (localWalkList lpfx "" es).Nodup))) ∧
    localWalkList "" "" [.dir "a" [.file "c"], .file "a-b", .file "x.tmp"] =
      ["a/c", "a-b"] :=
  ⟨mockWalk_ordering_amended [("b", []), ("a", []), ("ab", [])] "a"
    (by decide) (by decide),
   ((mockWalk_ordering_amended [("b", []), ("a", []), ("ab", [])] "a"
      (by decide) (by decide)).2
      [.dir "a" [.file "c"], .file "a-b", .file "x.tmp"] "").1.trans (by decide)⟩

/- ### S3 WalkFrom over a well-formed bucket: general prefix and store path -/

/-- The physical-key prefix a store path contributes: `path + "/"` when the
path is non-empty. -/
def pathPre (path : String) : String :=
  if path = "" then "" else path ++ "/"

theorem goTrimSuf_empty (s : String) : goTrimSuf s "" = s := by
  apply String.ext
  rw [goTrimSuf, data_mk]
  show trimSufL s.data [] = s.data
  exact trimSufL_nil s.data

theorem isPrefixOf_append_same (x a b : List Char) :
    (x ++ a).isPrefixOf (x ++ b) = a.isPrefixOf b := by
  induction x with
  | nil => rfl
  | cons c cs ih => simp [List.isPrefixOf, ih]

theorem goStrLtL_append_same (x a b : List Char) :
    goStrLtL (x ++ a) (x ++ b) = goStrLtL a b := by
  induction x with
  | nil => rfl
  | cons c cs ih => simp [goStrLtL, ih]

/-- A clean relative path never ends in a slash. -/
theorem validRel_no_slash_suffix (p : String) (h : validRel p = true) :
    goHasSuf p "/" = false := by
  by_contra hcon
  rw [Bool.not_eq_false] at hcon
  rw [goHasSuf] at hcon
  have hsuf : (("/" : String)).data <:+ p.data :=
    List.isSuffixOf_iff_suffix.mp hcon
  rcases hsuf with ⟨x, hx⟩
  have hx' : p.data = x ++ '/' :: [] := by
    rw [← hx]
  rw [validRel, hx', splitSlash_append] at h
  simp [splitSlash, goodSeg] at h

/-- Splitting after a leading slash. -/
theorem splitSlash_slash_cons (l : List Char) :
    splitSlash ('/' :: l) = [] :: splitSlash l := by
  rw [splitSlash]
  exact if_pos rfl

/-- `cleanStack` drops an interior empty segment between good segments. -/
theorem cleanStack_skip_empty (rooted : Bool) (stack : List (List Char))
    (xs ys : List (List Char)) (hxs : xs.all goodSeg = true)
    (hys : ys.all goodSeg = true) :
    cleanStack rooted stack (xs ++ [] :: ys) = stack.reverse ++ xs ++ ys := by
  induction xs generalizing stack with
  | nil =>
    have hstep : cleanStack rooted stack ([] :: ys) =
        cleanStack rooted stack ys := by
      simp [cleanStack]
    rw [List.nil_append, hstep, cleanStack_of_good ys hys rooted stack]
    simp
  | cons seg rest ih =>
    simp only [List.all_cons, Bool.and_eq_true] at hxs
    obtain ⟨hseg, hrest⟩ := hxs
    simp only [goodSeg, decide_eq_true_eq] at hseg
    obtain ⟨h₁, h₂, h₃⟩ := hseg
    have hor : ¬(seg = [] ∨ seg = ['.']) := by
      simp [h₁, h₂]
    show cleanStack rooted stack (seg :: (rest ++ [] :: ys)) = _
    simp only [cleanStack, hor, h₃, if_false]
    rw [ih (seg :: stack) hrest]
    simp

/-- Cleaning collapses a doubled slash between clean relative parts. -/
theorem pathClean_rel_skip (l l' : List Char)
    (h : (splitSlash l).all goodSeg = true)
    (h' : (splitSlash l').all goodSeg = true) :
    pathClean (String.mk (l ++ '/' :: '/' :: l')) =
      String.mk (l ++ '/' :: l') := by
  cases l with
  | nil => simp [splitSlash, goodSeg] at h
  | cons c rest =>
    have hc : ¬(c = '/') := by
      intro hc
      subst hc
      rw [splitSlash_slash_cons] at h
      simp [goodSeg] at h
    have hsplit : splitSlash (c :: (rest ++ '/' :: '/' :: l')) =
        splitSlash (c :: rest) ++ [] :: splitSlash l' := by
      show splitSlash ((c :: rest) ++ '/' :: '/' :: l') = _
      rw [splitSlash_append, splitSlash_slash_cons]
    have hclean : cleanStack (decide (c = '/')) []
        (splitSlash (c :: (rest ++ '/' :: '/' :: l'))) =
        splitSlash (c :: rest) ++ splitSlash l' := by
      rw [hsplit, cleanStack_skip_empty _ [] _ _ h h']
      simp
    have hjoin : joinSegs (splitSlash (c :: rest) ++ splitSlash l') =
        c :: (rest ++ '/' :: l') := by
      rw [← splitSlash_append, joinSegs_splitSlash]
      simp
    have hne : joinSegs (splitSlash (c :: rest) ++ splitSlash l') ≠ [] := by
      rw [hjoin]
      simp
    simp only [pathClean, data_mk, List.cons_append, hclean, hjoin] at hne ⊢
    simp [hc, hne]

/-- Cleaning collapses a doubled slash in a rooted path with clean parts. -/
theorem pathClean_rooted_skip (l l' : List Char)
    (h : (splitSlash l).all goodSeg = true)
    (h' : (splitSlash l').all goodSeg = true) :
    pathClean (String.mk ('/' :: (l ++ '/' :: '/' :: l'))) =
      String.mk ('/' :: (l ++ '/' :: l')) := by
  have hsplit : splitSlash ('/' :: (l ++ '/' :: '/' :: l')) =
      [] :: (splitSlash l ++ [] :: splitSlash l') := by
    rw [splitSlash_slash_cons]
    show [] :: splitSlash (l ++ '/' :: '/' :: l') = _
    rw [splitSlash_append, splitSlash_slash_cons]
  have hclean : cleanStack true [] (splitSlash ('/' :: (l ++ '/' :: '/' :: l'))) =
      splitSlash l ++ splitSlash l' := by
    rw [hsplit]
    have hskip : cleanStack true [] ([] :: (splitSlash l ++ [] :: splitSlash l')) =
        cleanStack true [] (splitSlash l ++ [] :: splitSlash l') := by
      simp [cleanStack]
    rw [hskip, cleanStack_skip_empty true [] _ _ h h']
    simp
  have hjoin : joinSegs (splitSlash l ++ splitSlash l') = l ++ '/' :: l' := by
    rw [← splitSlash_append, joinSegs_splitSlash]
  simp only [pathClean, data_mk, decide_True]
  rw [if_pos trivial, hclean, hjoin]

/-- With a clean store path and a clean prefix, the S3 `targetPrefix` is the
plain physical-key prefix. -/
theorem s3TargetPre_eq (path pfx : String)
    (hpath : validBase path = true ∨ path = "")
    (hpfx : validRel pfx = true ∨ pfx = "") :
    s3TargetPre path pfx = pathPre path ++ pfx := by
  rcases hpfx with hpfx | hpfx
  · have hpfxne : pfx ≠ "" := by
      intro he
      rw [he] at hpfx
      simp [validRel, splitSlash, goodSeg] at hpfx
    have hnosuf : goHasSuf pfx "/" = false := validRel_no_slash_suffix pfx hpfx
    rcases hpath with hpath | hpath
    · have hpne : path ≠ "" := by
        intro he
        rw [validBase, he] at hpath
        simp at hpath
      rw [s3TargetPre]
      simp only [hpne, if_true, hpfxne, hnosuf, Bool.false_eq_true, if_false,
        ne_eq, not_false_eq_true, ite_true, ite_false]
      rw [pathPre, if_neg hpne]
      have hjne : path ++ "/" ≠ "" := by
        intro he
        have : (path ++ "/").data = [] := by rw [he]
        rw [String.data_append] at this
        simp at this
      rw [pathJoin, if_neg hjne, if_neg hpfxne]
      -- Clean((path ++ "/") ++ "/" ++ pfx)
      cases hd : path.data with
      | nil =>
        rw [validBase, hd] at hpath
        simp at hpath
      | cons c rest =>
        by_cases hc : c = '/'
        · subst hc
          rw [validBase, hd] at hpath
          simp only [Bool.and_eq_true, Bool.not_eq_true',
            List.isEmpty_eq_false] at hpath
          obtain ⟨hrestne, hgood⟩ := hpath
          have heq1 : (path ++ "/") ++ "/" ++ pfx =
              String.mk ('/' :: (rest ++ '/' :: '/' :: pfx.data)) := by
            apply String.ext
            simp [String.data_append, hd]
          have heq2 : path ++ "/" ++ pfx =
              String.mk ('/' :: (rest ++ '/' :: pfx.data)) := by
            apply String.ext
            simp [String.data_append, hd]
          rw [heq1, heq2]
          rcases hpfx' : validRel pfx with h | h
          · rw [hpfx'] at hpfx; exact absurd hpfx (by simp)
          · exact pathClean_rooted_skip rest pfx.data hgood (by rw [validRel] at hpfx; exact hpfx)
        · rw [validBase, hd] at hpath
          have hgood : (splitSlash (c :: rest)).all goodSeg = true := by
            cases hcr : (c :: rest) with
            | nil => simp at hcr
            | cons d ds => simp_all [hc]
          have heq1 : (path ++ "/") ++ "/" ++ pfx =
              String.mk ((c :: rest) ++ '/' :: '/' :: pfx.data) := by
            apply String.ext
            simp [String.data_append, hd]
          have heq2 : path ++ "/" ++ pfx =
              String.mk ((c :: rest) ++ '/' :: pfx.data) := by
            apply String.ext
            simp [String.data_append, hd]
          rw [heq1, heq2]
          exact pathClean_rel_skip (c :: rest) pfx.data hgood
            (by rw [validRel] at hpfx; exact hpfx)
    · subst hpath
      rw [s3TargetPre]
      simp only [ne_eq, not_true_eq_false, ite_false, hpfxne, not_false_eq_true,
        ite_true, hnosuf, Bool.false_eq_true, if_false]
      rw [pathPre, if_pos rfl, String.empty_append]
      rw [pathJoin, if_pos rfl, if_neg hpfxne]
      have : pathClean pfx = pfx := by
        have := pathClean_rel pfx.data (by rw [validRel] at hpfx; exact hpfx)
        rwa [mk_data] at this
      rw [this]
  · subst hpfx
    rw [s3TargetPre]
    simp only [ne_eq, not_true_eq_false, ite_false]
    rw [String.append_empty]
    rcases hpath with hpath | hpath
    · have hpne : path ≠ "" := by
        intro he
        rw [validBase, he] at hpath
        simp at hpath
      rw [pathPre, if_neg hpne]
      simp [hpne]
    · subst hpath
      rw [pathPre, if_pos rfl]
      simp

/-- Stripping the physical-key prefix recovers the basename (empty
extension). -/
theorem s3ToBaseName_key (path n : String) (hn : n.data.head? ≠ some '/') :
    s3ToBaseName path "" (pathPre path ++ n) = n := by
  by_cases hp : path = ""
  · subst hp
    rw [pathPre, if_pos rfl, String.empty_append]
    exact s3ToBaseName_id n hn
  · rw [pathPre, if_neg hp, s3ToBaseName]
    have hpw : pathWithExt "" "" = "" := rfl
    rw [hpw, goTrimSuf_empty]
    apply String.ext
    rw [goTrimPre, data_mk]
    have hdat : ((path ++ "/") ++ n).data = (path ++ "/").data ++ n.data := by
      simp [String.data_append]
    rw [hdat]
    exact trimPreL_append (path ++ "/").data n.data

theorem goHasPre_pp (pp n pfx : String) :
    goHasPre (pp ++ n) (pp ++ pfx) = goHasPre n pfx := by
  rw [goHasPre, goHasPre, String.data_append, String.data_append]
  exact isPrefixOf_append_same pp.data pfx.data n.data

theorem goStrLt_pp (pp a b : String) :
    goStrLt (pp ++ a) (pp ++ b) = goStrLt a b := by
  rw [goStrLt, goStrLt, String.data_append, String.data_append]
  exact goStrLtL_append_same pp.data a.data b.data

theorem goTrimPre_append (x y : String) : goTrimPre (x ++ y) x = y := by
  apply String.ext
  rw [goTrimPre, data_mk, String.data_append]
  exact trimPreL_append x.data y.data

/-- From `m < s` and `¬(n < s)` conclude `m < n`. -/
theorem goStrLt_lt_of_not_lt (m s n : String) (hms : goStrLt m s = true)
    (hns : goStrLt n s = false) : goStrLt m n = true := by
  rcases Bool.eq_false_or_eq_true (goStrLt m n) with hmn | hmn
  · exact hmn
  · exfalso
    rw [goStrLt] at hms hns hmn
    rcases Bool.eq_false_or_eq_true (goStrLtL n.data m.data) with hnm | hnm
    · have : goStrLtL n.data s.data = true := goStrLtL_trans _ _ _ hnm hms
      rw [this] at hns
      exact Bool.true_eq_false.mp hns
    · have heq : m.data = n.data := goStrLtL_connex _ _ hmn hnm
      rw [heq] at hms
      rw [hms] at hns
      exact Bool.true_eq_false.mp hns

/-- `S3Store.WalkFrom` over a well-formed bucket (no extension; every key is
the store path joined with a non-empty basename not starting with a slash;
listing served in ascending order): for every clean store path and prefix,
the visited basenames are exactly the at-or-past-`s` suffix of the
prefix-matching basenames. -/
theorem s3WalkFrom_wf (path pfx s : String) (names : List String)
    (hpath : validBase path = true ∨ path = "")
    (hpfx : validRel pfx = true ∨ pfx = "")
    (hsorted : names.Pairwise goLe)
    (hnames : ∀ n ∈ names, n ≠ "" ∧ n.data.head? ≠ some '/')
    (hs : s = "" ∨ goHasPre s pfx = true) :
    s3WalkFrom path "" (names.map (fun n => pathPre path ++ n)) pfx s =
      ((names.filter (fun n => goHasPre n pfx)).dropWhile (fun n => goStrLt n s),
        none) := by
  have hfilq : (names.map (fun n => pathPre path ++ n)).filter
      (fun k => goHasPre k (pathPre path ++ pfx)) =
      (names.filter (fun n => goHasPre n pfx)).map
        (fun n => pathPre path ++ n) := by
    rw [List.filter_map]
    congr 1
    apply List.filter_congr
    intro n _
    show goHasPre (pathPre path ++ n) (pathPre path ++ pfx) = goHasPre n pfx
    exact goHasPre_pp _ _ _
  have hmapBase : ∀ (l : List String), (∀ n ∈ l, n.data.head? ≠ some '/') →
      (l.map (fun n => pathPre path ++ n)).map
        (fun k => s3ToBaseName path "" k) = l := by
    intro l hl
    rw [List.map_map]
    have hcg : l.map ((fun k => s3ToBaseName path "" k) ∘
        (fun n => pathPre path ++ n)) = l.map id :=
      List.map_congr_left (fun n hn => s3ToBaseName_key path n (hl n hn))
    rw [hcg, List.map_id]
  have hsubnames : ∀ n ∈ names.filter (fun n => goHasPre n pfx),
      n ≠ "" ∧ n.data.head? ≠ some '/' :=
    fun n hn => hnames n (List.mem_filter.mp hn).1
  by_cases hsne : s = ""
  · subst hsne
    rw [s3WalkFrom]
    dsimp only
    rw [if_neg (by rintro ⟨h, -⟩; exact h rfl)]
    rw [s3TargetPre_eq path pfx hpath hpfx]
    rw [if_neg (by rintro ⟨h, -⟩; exact h rfl)]
    rw [hfilq]
    have hfil2 : ((names.filter (fun n => goHasPre n pfx)).map
        (fun n => pathPre path ++ n)).filter
        (fun k => match (none : Option String), k with
          | none, _ => true
          | some m, k => goStrLt m k) =
        (names.filter (fun n => goHasPre n pfx)).map
          (fun n => pathPre path ++ n) := by
      rw [List.filter_eq_self]
      intro k _
      rfl
    rw [hfil2]
    rw [hmapBase _ (fun n hn => (hsubnames n hn).2)]
    have hfin : (names.filter (fun n => goHasPre n pfx)).filter
        (fun fn => decide (fn ≠ "") && (decide (("" : String) = "") || !goStrLt fn "")) =
        names.filter (fun n => goHasPre n pfx) := by
      rw [List.filter_eq_self]
      intro n hn
      simp [(hsubnames n hn).1]
    rw [hfin, dropWhile_goStrLt_empty]
  · have hs : goHasPre s pfx = true := by
      rcases hs with h | h
      · exact absurd h hsne
      · exact h
    obtain ⟨r, hr⟩ : ∃ r, s.data = pfx.data ++ r := by
      have := List.isPrefixOf_iff_prefix.mp (by rw [goHasPre] at hs; exact hs)
      rcases this with ⟨r, hr⟩
      exact ⟨r, hr.symm⟩
    have hsdecomp : s = pfx ++ String.mk r := by
      apply String.ext
      rw [String.data_append, data_mk, hr]
    have hrel : goTrimPre s pfx = String.mk r := by
      rw [hsdecomp]
      exact goTrimPre_append pfx (String.mk r)
    rw [s3WalkFrom]
    dsimp only
    rw [if_neg (by rintro ⟨-, h2⟩; rw [hs] at h2; exact Bool.true_eq_false.mp h2)]
    rw [s3TargetPre_eq path pfx hpath hpfx, hrel]
    have hdecs : decide (s = "") = false := by simp [hsne]
    by_cases hlen : (String.mk r).data.length > 1
    · rw [if_pos ⟨hsne, hlen⟩]
      rw [hfilq]
      have hmarker : (pathPre path ++ pfx) ++
          String.mk ((String.mk r).data.take ((String.mk r).data.length - 1)) =
          pathPre path ++ (pfx ++ String.mk (r.take (r.length - 1))) := by
        rw [String.append_assoc]
      rw [hmarker]
      have hfil2 : ((names.filter (fun n => goHasPre n pfx)).map
          (fun n => pathPre path ++ n)).filter
          (fun k => match some (pathPre path ++ (pfx ++ String.mk (r.take (r.length - 1)))), k with
            | none, _ => true
            | some m, k => goStrLt m k) =
          ((names.filter (fun n => goHasPre n pfx)).filter
            (fun n => goStrLt (pfx ++ String.mk (r.take (r.length - 1))) n)).map
            (fun n => pathPre path ++ n) := by
        rw [List.filter_map]
        congr 1
        apply List.filter_congr
        intro n _
        show goStrLt (pathPre path ++ (pfx ++ String.mk (r.take (r.length - 1))))
          (pathPre path ++ n) = _
        exact goStrLt_pp _ _ _
      rw [hfil2]
      have hsubnames2 : ∀ n ∈ (names.filter (fun n => goHasPre n pfx)).filter
          (fun n => goStrLt (pfx ++ String.mk (r.take (r.length - 1))) n),
          n ≠ "" ∧ n.data.head? ≠ some '/' :=
        fun n hn => hsubnames n (List.mem_filter.mp hn).1
      rw [hmapBase _ (fun n hn => (hsubnames2 n hn).2)]
      have hmlt : goStrLt (pfx ++ String.mk (r.take (r.length - 1))) s = true := by
        rw [hsdecomp, goStrLt_pp]
        rw [goStrLt, data_mk, data_mk]
        exact goStrLtL_take_pred r (by
          intro he
          rw [he] at hlen
          simp [data_mk] at hlen)
      have hcomb : ((names.filter (fun n => goHasPre n pfx)).filter
          (fun n => goStrLt (pfx ++ String.mk (r.take (r.length - 1))) n)).filter
          (fun fn => decide (fn ≠ "") && (decide (s = "") || !goStrLt fn s)) =
          (names.filter (fun n => goHasPre n pfx)).filter
            (fun n => !goStrLt n s) := by
        rw [List.filter_filter]
        apply List.filter_congr
        intro n hn
        have hne' : decide (n ≠ "") = true := by simp [(hsubnames n hn).1]
        rw [hne', hdecs]
        rcases Bool.eq_false_or_eq_true (goStrLt n s) with hns | hns
        · rw [hns]
          simp
        · rw [hns]
          have hm : goStrLt (pfx ++ String.mk (r.take (r.length - 1))) n = true :=
            goStrLt_lt_of_not_lt _ s _ hmlt hns
          rw [hm]
          rfl
      rw [hcomb, filter_eq_dropWhile_sorted s _ (hsorted.filter _)]
    · rw [if_neg (by rintro ⟨-, h2⟩; exact hlen h2)]
      rw [hfilq]
      have hfil2 : ((names.filter (fun n => goHasPre n pfx)).map
          (fun n => pathPre path ++ n)).filter
          (fun k => match (none : Option String), k with
            | none, _ => true
            | some m, k => goStrLt m k) =
          (names.filter (fun n => goHasPre n pfx)).map
            (fun n => pathPre path ++ n) := by
        rw [List.filter_eq_self]
        intro k _
        rfl
      rw [hfil2]
      rw [hmapBase _ (fun n hn => (hsubnames n hn).2)]
      have hfin : (names.filter (fun n => goHasPre n pfx)).filter
          (fun fn => decide (fn ≠ "") && (decide (s = "") || !goStrLt fn s)) =
          (names.filter (fun n => goHasPre n pfx)).filter
            (fun n => !goStrLt n s) := by
        apply List.filter_congr
        intro n hn
        have hne' : decide (n ≠ "") = true := by simp [(hsubnames n hn).1]
        rw [hne', hdecs]
        simp
      rw [hfin, filter_eq_dropWhile_sorted s _ (hsorted.filter _)]

/-- C2 counterexample: with a non-empty extension (`"zst"`), trimming the
extension off the object keys inverts the order of the visited basenames:
over the ascending bucket listing `["a!x.zst", "a.zst"]` (character `'!'`
sorts below `'.'`), `Walk` = `WalkFrom("", "")` visits `["a!x", "a"]` — not
ascending — and `WalkFrom("", "a!")` visits only `["a!x"]`, although the
at-or-past-`"a!"` suffix of `Walk`'s sequence is `["a!x", "a"]` and contains
`"a"`. So `WalkFrom` is not the claimed suffix of `Walk`. -/
theorem s3WalkFrom_extension_counterexample :
    s3WalkFrom "" "zst" ["a!x.zst", "a.zst"] "" "" = (["a!x", "a"], none) ∧
    s3WalkFrom "" "zst" ["a!x.zst", "a.zst"] "" "a!" = (["a!x"], none) ∧
    ["a!x", "a"].dropWhile (fun n => goStrLt n "a!") = ["a!x", "a"] ∧
    "a" ∈ ["a!x", "a"].dropWhile (fun n => goStrLt n "a!") ∧
    ¬ List.Pairwise goLe ["a!x", "a"] := by
  refine ⟨by decide, by decide, by decide, by decide, ?_⟩
  rw [List.pairwise_cons]
  rintro ⟨h1, -⟩
  have h := h1 "a" (by decide)
  rw [goLe] at h
  exact absurd h (by decide)

/-- C2 (amended). For every prefix and every starting point that starts
with it, `WalkFrom` visits exactly the suffix of `Walk`'s visit sequence
beginning at the first name lexicographically at or past the starting point
(inclusive), in the same order: (i) the shared `commonWalkFrom` gate turns
any store's walk output into exactly that suffix, with all skipped names
strictly below the starting point and the first surviving name at or past
it; (ii) `S3Store.WalkFrom` with an empty extension — over any clean store
path and any well-formed bucket whose keys are the store path joined with
non-empty basenames not starting with a slash, served in ascending order by
the S3 pagination API — likewise yields exactly that suffix of its own
`Walk` = `WalkFrom(prefix, "")`, for every valid prefix. With a non-empty
extension the property fails: trimming the extension can invert the
basename order and `WalkFrom`'s start-after marker can then skip names the
suffix contains. -/
theorem walkFrom_suffix_of_walk (walkOut : List String × Option GoErr)
    (pfx startPt : String) (hsp : goHasPre startPt pfx = true) :
    (commonWalkFrom walkOut pfx startPt =
      ((walkOut.1).dropWhile (fun n => goStrLt n startPt), walkOut.2) ∧
     (∃ dropped,
        walkOut.1 = dropped ++ (walkOut.1).dropWhile (fun n => goStrLt n startPt) ∧
        (∀ x ∈ dropped, goStrLt x startPt = true) ∧
        (∀ x, ((walkOut.1).dropWhile (fun n => goStrLt n startPt)).head? = some x →
          goStrLe startPt x = true))) ∧
    (∀ (path pfx2 s : String) (names : List String),
      (validBase path = true ∨ path = "") →
      (validRel pfx2 = true ∨ pfx2 = "") →
      names.Pairwise goLe →
      (∀ n ∈ names, n ≠ "" ∧ n.data.head? ≠ some '/') →
      (s = "" ∨ goHasPre s pfx2 = true) →
      s3WalkFrom path "" (names.map (fun n => pathPre path ++ n)) pfx2 s =
        ((s3WalkFrom path "" (names.map (fun n => pathPre path ++ n)) pfx2 "").1.dropWhile
          (fun n => goStrLt n s), none)) := by
  refine ⟨⟨?_, ?_⟩, ?_⟩
  · rw [commonWalkFrom]
    rw [if_neg (by
      rintro ⟨-, h2⟩
      rw [hsp] at h2
      exact Bool.true_eq_false.mp h2)]
    rw [walkFromVisit_eq_dropWhile]
  · refine ⟨(walkOut.1).takeWhile (fun n => goStrLt n startPt),
      (List.takeWhile_append_dropWhile _ _).symm, ?_, ?_⟩
    · intro x hx
      exact @List.mem_takeWhile_imp String (fun n => goStrLt n startPt) walkOut.1 x hx
    · intro x hx
      have h := List.head?_dropWhile_not (fun n => goStrLt n startPt) walkOut.1
      rw [hx] at h
      simp only at h
      rw [goStrLe, goStrLt] at *
      rw [h]
      rfl
  · intro path pfx2 s names hpath hpfx2 hsorted hnames hs
    rw [s3WalkFrom_wf path pfx2 s names hpath hpfx2 hsorted hnames hs,
      s3WalkFrom_wf path pfx2 "" names hpath hpfx2 hsorted hnames (Or.inl rfl)]
    dsimp only
    rw [dropWhile_goStrLt_empty]

/-- C2 witness: Scenario A — names `00000001..00000004`, starting point
`00000002`, through the shared `commonWalkFrom`; and the S3 leg over store
path `sub/path`, basenames `b/0001`, `b/0002`, prefix `b`, starting point
`b/0002`. -/
theorem walkFrom_suffix_of_walk_witness :
    goHasPre "00000002" "" = true ∧
    commonWalkFrom (["00000001", "00000002", "00000003", "00000004"], none)
      "" "00000002" =
      (["00000002", "00000003", "00000004"], none) ∧
    s3WalkFrom "sub/path" ""
      (["b/0001", "b/0002"].map (fun n => pathPre "sub/path" ++ n))
      "b" "b/0002" = (["b/0002"], none) := by
  have h := walkFrom_suffix_of_walk
    (["00000001", "00000002", "00000003", "00000004"], none) "" "00000002"
    (by decide)
  refine ⟨by decide, ?_, ?_⟩
  · rw [h.1.1]
    decide
  · rw [h.2 "sub/path" "b" "b/0002" ["b/0001", "b/0002"]
      (Or.inl (by decide)) (Or.inl (by decide)) (by decide) (by decide)
      (Or.inr (by decide))]
    decide
